import Mathlib

/-!
Verification of the intent-governance hook middleware (pre-hook gate, scope
matcher, specification parser, mutation classifier, post-hook ledger writer,
intent map updater).  The TypeScript sources are shallowly embedded: strings
become lists of characters, the JavaScript string primitives used by the code
(split, trim, includes, startsWith, replace) are given as executable Lean
functions with the same semantics, and file-system reads become `Option`
inputs (`none` models a read that threw).
-/

namespace Roo

/-- Strings are modelled as lists of characters. -/
abbrev Str := List Char

/-- Coerce a Lean string literal to the character-list model. -/
def str (s : String) : Str := s.data

/-- The JavaScript whitespace class (as used by `trim` and `\s`):
ASCII whitespace plus the Unicode space separators, line/paragraph
separators, NBSP, narrow NBSP, medium mathematical space, ideographic
space and the BOM. -/
def isWs (c : Char) : Bool :=
  c = ' ' || c = '\t' || c = '\n' || c = '\x0b' || c = '\x0c' || c = '\r' ||
  c.toNat = 0xa0 || c.toNat = 0x1680 ||
  (0x2000 ≤ c.toNat && c.toNat ≤ 0x200a) ||
  c.toNat = 0x2028 || c.toNat = 0x2029 || c.toNat = 0x202f ||
  c.toNat = 0x205f || c.toNat = 0x3000 || c.toNat = 0xfeff

/-- JavaScript `s.split(c)` for a one-character separator: every occurrence
separates, empty segments are kept, and the result is always non-empty. -/
def splitOnChar (c : Char) : Str → List Str
  | [] => [[]]
  | x :: xs =>
    if x = c then [] :: splitOnChar c xs
    else
      match splitOnChar c xs with
      | [] => [[x]]
      | h :: t => (x :: h) :: t

/-- JavaScript `parts.join(c)` for a one-character separator. -/
def joinChar (c : Char) : List Str → Str
  | [] => []
  | [s] => s
  | s :: r :: t => s ++ c :: joinChar c (r :: t)

/-- Drop leading JavaScript whitespace (the left half of `trim`). -/
def trimLeft (l : Str) : Str := l.dropWhile isWs

/-- Drop trailing JavaScript whitespace (the right half of `trim`,
and also JavaScript `replace(/\s+$/, "")`). -/
def trimRight (l : Str) : Str := (l.reverse.dropWhile isWs).reverse

/-- JavaScript `s.trim()`. -/
def jsTrim (l : Str) : Str := trimRight (trimLeft l)

/-- JavaScript `hay.includes(needle)`: substring containment
(the empty needle is contained everywhere). -/
def strIncludes (needle : Str) : Str → Bool
  | [] => needle.isEmpty
  | c :: rest => needle.isPrefixOf (c :: rest) || strIncludes needle rest

/-- JavaScript string truthiness on an optional string: `undefined` and the
empty string are falsy.  `truthyStr v` is `some` of the value exactly when
a JS `if (v)` guard passes. -/
def truthyStr : Option Str → Option Str
  | some s => if s.isEmpty then none else some s
  | none => none

/-! ### Scope matcher (src/hooks/preHook.ts: matchScope / matchRest / matchSegment)

`matchSegment` falls back to `new RegExp("^" + pat.replace(/\*/g, "[^/]*") + "$")`.
The regular-expression dialect is embedded for the constructs such a pattern
can contain after the translation: literal characters, `.` (any character)
and the translated `[^/]*` star.  Other regex metacharacters (`+`, `(`,
`[`, `\` …) are not modelled; no theorem below evaluates the matcher on a
segment containing them. -/

/-- One atom of the compiled segment regex. -/
inductive RAtom where
  | lit (c : Char)
  | dot
  | starNS
deriving DecidableEq

/-- Compile a pattern segment exactly as
`"^" + pat.replace(/\*/g, "[^/]*") + "$"` does: `*` becomes the
non-slash star, `.` is the regex any-character, everything else is literal. -/
def compileSeg (pat : Str) : List RAtom :=
  pat.map (fun c => if c = '*' then RAtom.starNS else if c = '.' then RAtom.dot else RAtom.lit c)

/-- Try the `[^/]*` star against every split point of the input:
match zero characters, or consume one non-slash character and retry. -/
def starHelper (f : Str → Bool) : Str → Bool
  | [] => f []
  | x :: xs => f (x :: xs) || (x ≠ '/' && starHelper f xs)

/-- Anchored match of the compiled regex against a whole segment. -/
def atomsMatch : List RAtom → Str → Bool
  | [], cs => cs.isEmpty
  | RAtom.lit c :: as, cs =>
    match cs with
    | [] => false
    | x :: xs => x = c && atomsMatch as xs
  | RAtom.dot :: as, cs =>
    match cs with
    | [] => false
    | _ :: xs => atomsMatch as xs
  | RAtom.starNS :: as, cs => starHelper (atomsMatch as) cs

/-- src: `matchSegment(pat, seg)` — `*` matches any whole segment, an exactly
equal segment matches, otherwise the unescaped-RegExp fallback is consulted. -/
def matchSegment (pat seg : Str) : Bool :=
  if pat = str ("*") then true
  else if pat = seg then true
  else atomsMatch (compileSeg pat) seg

/-- Helper for the `**` backtracking loop in `matchScope`/`matchRest`:
try the remaining pattern at the current suffix, then advance one segment
and retry; the loop stops (failing) once the path segments are exhausted. -/
def anySuffix (f : List Str → Bool) : List Str → Bool
  | [] => false
  | q :: qs => f (q :: qs) || anySuffix f qs

/-- src: the shared segment-consuming loop of `matchScope` and `matchRest`
(the two functions' bodies are identical).  `**` at the end matches
everything; otherwise it backtracks over path suffixes; a pattern and a
path match only when both are fully consumed. -/
def matchParts : List Str → List Str → Bool
  | [], path => path.isEmpty
  | p :: ps, path =>
    match path with
    | [] => false
    | q :: qs =>
      if p = str ("**") then
        match ps with
        | [] => true
        | _ :: _ => anySuffix (matchParts ps) (q :: qs)
      else matchSegment p q && matchParts ps qs

/-- src: `matchScope(scope, normalizedPath)` — backslashes in the pattern are
normalized to forward slashes, both sides are split on `/`, and the
segment loop runs. -/
def matchScope (scope normalizedPath : Str) : Bool :=
  let pattern := scope.map (fun c => if c = '\\' then '/' else c)
  matchParts (splitOnChar '/' pattern) (splitOnChar '/' normalizedPath)

/-! ### Specification store reader (src/hooks/preHook.ts: parseActiveIntentsYaml, v2) -/

/-- src/hooks/types.ts `ActiveIntentEntry`: one parsed intent. -/
structure ActiveIntentEntry where
  id : Str
  name : Option Str := none
  status : Option Str := none
  owned_scope : Option (List Str) := none
  constraints : Option (List Str) := none
  acceptance_criteria : Option (List Str) := none
deriving DecidableEq

/-- The parser's `current` object: a partially built entry whose `id` may
still be unset (`Partial<ActiveIntentEntry>` in the source). -/
structure PEntry where
  id : Option Str := none
  name : Option Str := none
  owned_scope : Option (List Str) := none
  constraints : Option (List Str) := none
  acceptance_criteria : Option (List Str) := none
deriving DecidableEq

/-- The parser's `listKey`: which list field subsequent `- ` items feed. -/
inductive LKey where
  | scope
  | constr
  | accept
deriving DecidableEq

/-- Read the list field selected by `listKey`. -/
def listGet (cur : PEntry) : LKey → Option (List Str)
  | LKey.scope => cur.owned_scope
  | LKey.constr => cur.constraints
  | LKey.accept => cur.acceptance_criteria

/-- Write the list field selected by `listKey`. -/
def listSet (cur : PEntry) (k : LKey) (v : List Str) : PEntry :=
  match k with
  | LKey.scope => { cur with owned_scope := some v }
  | LKey.constr => { cur with constraints := some v }
  | LKey.accept => { cur with acceptance_criteria := some v }

/-- `if (current.id) entries.push(current as ActiveIntentEntry)` — the JS
guard is string truthiness, so an entry whose parsed id is the empty string
is dropped. -/
def pushCurrent (entries : List ActiveIntentEntry) (cur : PEntry) : List ActiveIntentEntry :=
  match truthyStr cur.id with
  | some i =>
    entries ++ [{ id := i, name := cur.name, owned_scope := cur.owned_scope,
                  constraints := cur.constraints, acceptance_criteria := cur.acceptance_criteria }]
  | none => entries

/-- The `current.id && …` guards of the field branches: string truthiness
of the current entry's id. -/
def pidTruthy (cur : PEntry) : Bool := (truthyStr cur.id).isSome

/-- A quoting character, for `replace(/^["']|["']$/g, "")`. -/
def isQuote (c : Char) : Bool := c = '"' || c = '\x27'

/-- JavaScript `replace(/^["']|["']$/g, "")`: remove one leading and, from
what remains, one trailing quote character. -/
def stripQuotes (l : Str) : Str :=
  let l1 := match l with
    | [] => ([] : Str)
    | c :: rest => if isQuote c then rest else c :: rest
  match l1.getLast? with
  | some c => if isQuote c then l1.dropLast else l1
  | none => l1

/-- JavaScript `startsWith`. -/
def startsWithStr (pre t : Str) : Bool := pre.isPrefixOf t

/-- Value of a scalar line: strip the key (and the `\s*` after it), strip
quotes, trim — `trimmed.replace(/^key:\s*/, "").replace(/^["']|["']$/g, "").trim()`. -/
def scalarAfter (pre t : Str) : Str :=
  jsTrim (stripQuotes ((t.drop pre.length).dropWhile isWs))

/-- Parser state: accumulated entries, the current partial entry, `listKey`. -/
structure PState where
  entries : List ActiveIntentEntry
  cur : PEntry
  lk : Option LKey

/-- One iteration of the parser's `for (const line of lines)` loop. -/
def parseStep (st : PState) (line : Str) : PState :=
  let t := jsTrim line
  if startsWithStr (str ("- id:")) t then
    { entries := pushCurrent st.entries st.cur,
      cur := { id := some (scalarAfter (str ("- id:")) t) },
      lk := none }
  else if pidTruthy st.cur && startsWithStr (str ("name:")) t then
    { st with cur := { st.cur with name := some (scalarAfter (str ("name:")) t) }, lk := none }
  else if pidTruthy st.cur && startsWithStr (str ("owned_scope:")) t then
    { st with cur := { st.cur with owned_scope := some [] }, lk := some LKey.scope }
  else if pidTruthy st.cur && startsWithStr (str ("constraints:")) t then
    { st with cur := { st.cur with constraints := some [] }, lk := some LKey.constr }
  else if pidTruthy st.cur && startsWithStr (str ("acceptance_criteria:")) t then
    { st with cur := { st.cur with acceptance_criteria := some [] }, lk := some LKey.accept }
  else
    match st.lk with
    | some k =>
      if (listGet st.cur k).isSome && startsWithStr (str ("- ")) t then
        { st with cur := listSet st.cur k ((listGet st.cur k).getD [] ++ [jsTrim (stripQuotes (t.drop 2))]) }
      else if !t.isEmpty && t.contains ':' && !startsWithStr (str ("- ")) t then
        { st with lk := none }
      else st
    | none => st

/-- src: `parseActiveIntentsYaml(content)` — tolerant line-oriented parse of
the intent specification (id, name, owned_scope, constraints,
acceptance_criteria; malformed lines are ignored). -/
def parseActiveIntentsYaml (content : Str) : List ActiveIntentEntry :=
  let fin := (splitOnChar '\n' content).foldl parseStep ⟨[], {}, none⟩
  pushCurrent fin.entries fin.cur

/-- src: `loadIntentFromYaml(filePath, intentId)` — the file read is an
`Option` (`none` models the `catch` path: file missing or unreadable);
the function is total and never surfaces an exception. -/
def loadIntentFromYaml (fileContent : Option Str) (intentId : Str) : Option ActiveIntentEntry :=
  match fileContent with
  | none => none
  | some c => (parseActiveIntentsYaml c).find? (fun e => decide (e.id = intentId))

/-! ### Constants (src/hooks/constants.ts, Phase 2) -/

/-- src: `MUTATING_TOOL_NAMES`. -/
def mutatingToolNames : List Str :=
  [str ("write_to_file"), str ("apply_diff"), str ("edit"), str ("search_and_replace"),
   str ("search_replace"), str ("edit_file"), str ("apply_patch"), str ("execute_command"),
   str ("update_todo_list"), str ("new_task"), str ("generate_image")]

/-- src: `DESTRUCTIVE_TOOL_NAMES` — the subset of mutating tools that modify
the workspace or run shell. -/
def destructiveToolNames : List Str :=
  [str ("write_to_file"), str ("apply_diff"), str ("edit"), str ("search_and_replace"),
   str ("search_replace"), str ("edit_file"), str ("apply_patch"), str ("execute_command"),
   str ("generate_image")]

/-! ### Pre-hook gate (src/hooks/preHook.ts: runPreHook, v2)

Each distinct denial branch of `runPreHook` returns a distinct
`errorContent` message; the branches are represented by the constructors of
`PreDecision`, matching the documented error codes. -/

/-- The outcome of the pre-hook: allow, or one of the denial branches. -/
inductive PreDecision where
  | allow
  | intentRequired
  | intentNotFound (intentId : Str)
  | scopeViolation (intentId targetPath : Str)
deriving DecidableEq

/-- The inputs `runPreHook` reads: the tool name, whether `.orchestration`
exists at the workspace root (`fs.access`), the in-memory active intent for
the task, the two path parameters, and the `active_intents.yaml` content
(`none` models an unreadable file). -/
structure PreInput where
  toolName : Str
  orchExists : Bool
  activeIntent : Option Str
  nativeArgsPath : Option Str
  paramsPath : Option Str
  yamlContent : Option Str

/-- src: `block.nativeArgs?.path ?? block.params?.path`. -/
def effectiveFilePath (inp : PreInput) : Option Str :=
  match inp.nativeArgsPath with
  | some p => some p
  | none => inp.paramsPath

/-- src: `runPreHook(task, block)` — non-mutating tools pass; without the
`.orchestration` directory everything passes; a falsy active intent
(`if (!activeIntentId)`: unset or the empty string) denies
(intent_required); for `write_to_file` with a truthy path
(`if (filePath)`: a falsy one skips the branch), a non-resolving intent
denies (intent_not_found) and an out-of-scope path denies (scope_violation).
`normalizePath` abstracts Node's `path.normalize(p).replace(/\\/g, "/")`
(an external library call). -/
def runPreHook (normalizePath : Str → Str) (inp : PreInput) : PreDecision :=
  if !(mutatingToolNames.contains inp.toolName) then PreDecision.allow
  else if !inp.orchExists then PreDecision.allow
  else
    match truthyStr inp.activeIntent with
    | none => PreDecision.intentRequired
    | some activeIntentId =>
      if inp.toolName = str ("write_to_file") then
        match truthyStr (effectiveFilePath inp) with
        | none => PreDecision.allow
        | some filePath =>
          match loadIntentFromYaml inp.yamlContent activeIntentId with
          | none => PreDecision.intentNotFound activeIntentId
          | some intent =>
            match intent.owned_scope with
            | none => PreDecision.allow
            | some scopes =>
              if scopes.length > 0 then
                if scopes.any (fun scope => matchScope scope (normalizePath filePath)) then
                  PreDecision.allow
                else PreDecision.scopeViolation activeIntentId filePath
              else PreDecision.allow
      else PreDecision.allow

/-! ### Claims about the pre-hook gate and the scope matcher -/

/-- C1: with governance enabled (the `.orchestration` directory present) and
no active intent selected for the session, every mutating action is denied
by the intent-required branch — whatever the target path, the specification
content, or how the path relates to any owned_scope pattern: the
intent-presence check is evaluated strictly before the scope check. -/
theorem preHook_intent_required_first (normalizePath : Str → Str) (inp : PreInput)
    (hmut : mutatingToolNames.contains inp.toolName = true)
    (horch : inp.orchExists = true)
    (hintent : inp.activeIntent = none) :
    runPreHook normalizePath inp = PreDecision.intentRequired := by
  simp [runPreHook, truthyStr, hmut, horch, hintent]
  simpa using hmut

/-- Witness for C1: a `write_to_file` whose target path violates every
owned_scope pattern of the specification still gets the intent-required
denial, not the scope-violation one. -/
theorem preHook_intent_required_first_witness :
    mutatingToolNames.contains (str ("write_to_file")) = true ∧
    runPreHook (fun p => p)
      ⟨str ("write_to_file"), true, none, some (str ("docs/readme.md")), none,
       some (str ("- id: i1\n  owned_scope:\n    - \"src/**\""))⟩ =
      PreDecision.intentRequired :=
  ⟨by decide,
   preHook_intent_required_first (fun p => p)
     ⟨str ("write_to_file"), true, none, some (str ("docs/readme.md")), none,
      some (str ("- id: i1\n  owned_scope:\n    - \"src/**\""))⟩
     (by decide) rfl rfl⟩

/-- C5 (failing input): `matchSegment` compiles the pattern segment into a
regular expression without escaping, so the pattern segment `a.b`, which
contains no `*`, matches the different path segment `axb` (`.` acts as the
regex any-character) — refuting segment-equality matching for literal
segments. -/
theorem matchSegment_unescaped_regex_bug :
    matchSegment (str ("a.b")) (str ("axb")) = true ∧ str ("a.b") ≠ str ("axb") := by
  decide

/-- C6 (counterexample): a mutating action other than `write_to_file`
(here `execute_command`) with governance enabled and an active intent that
does not resolve in the specification is allowed — `runPreHook` checks
intent resolution only in the `write_to_file` branch, so the claim's
"for every mutating action" fails. -/
theorem preHook_exec_unresolved_intent_allows :
    runPreHook (fun p => p)
      ⟨str ("execute_command"), true, some (str ("i1")), none, none, some (str (""))⟩ =
      PreDecision.allow ∧
    PreDecision.allow ≠ PreDecision.intentNotFound (str ("i1")) := by
  decide

/-- C6 (amended): for a `write_to_file` action carrying a non-empty target
path, with governance enabled and a non-empty active intent id selected, if
the intent id does not resolve in the specification — including when the
specification file is missing or unreadable (`yamlContent = none`) — the
gate denies with the intent-not-found branch; the embedded loader is total,
so no exception reaches the caller.  (An empty intent id is falsy in the
source's `if (!activeIntentId)` guard and denies intent_required instead;
an empty path is falsy in `if (filePath)` and the action is allowed.) -/
theorem preHook_write_intent_not_found (normalizePath : Str → Str) (inp : PreInput)
    (iid fp : Str)
    (horch : inp.orchExists = true)
    (hintent : inp.activeIntent = some iid)
    (hiid : iid ≠ [])
    (htool : inp.toolName = str ("write_to_file"))
    (hpath : effectiveFilePath inp = some fp)
    (hfp : fp ≠ [])
    (hres : loadIntentFromYaml inp.yamlContent iid = none) :
    runPreHook normalizePath inp = PreDecision.intentNotFound iid := by
  have hmut : mutatingToolNames.contains inp.toolName = true := by
    rw [htool]; decide
  have hiid' : truthyStr inp.activeIntent = some iid := by
    rw [hintent]
    cases iid with
    | nil => exact absurd rfl hiid
    | cons a as => rfl
  have hfp' : truthyStr (effectiveFilePath inp) = some fp := by
    rw [hpath]
    cases fp with
    | nil => exact absurd rfl hfp
    | cons a as => rfl
  simp [runPreHook, hmut, horch, hiid', htool, hfp', hres]
  decide

/-- Witness for C6 (amended): missing specification file, a non-empty
intent id and a non-empty path. -/
theorem preHook_write_intent_not_found_witness :
    effectiveFilePath
      ⟨str ("write_to_file"), true, some (str ("i9")), some (str ("src/a.ts")), none, none⟩ =
      some (str ("src/a.ts")) ∧
    str ("i9") ≠ ([] : Str) ∧ str ("src/a.ts") ≠ ([] : Str) ∧
    runPreHook (fun p => p)
      ⟨str ("write_to_file"), true, some (str ("i9")), some (str ("src/a.ts")), none, none⟩ =
      PreDecision.intentNotFound (str ("i9")) :=
  ⟨rfl, by decide, by decide,
   preHook_write_intent_not_found (fun p => p)
     ⟨str ("write_to_file"), true, some (str ("i9")), some (str ("src/a.ts")), none, none⟩
     (str ("i9")) (str ("src/a.ts")) rfl rfl (by decide) rfl rfl (by decide) rfl⟩

/-- C7: when the `.orchestration` directory is absent from the workspace
root, the pre-hook allows every action request — for every tool name,
session state, target path and specification content. -/
theorem preHook_no_orchestration_allows (normalizePath : Str → Str) (inp : PreInput)
    (h : inp.orchExists = false) :
    runPreHook normalizePath inp = PreDecision.allow := by
  unfold runPreHook
  rw [h]
  by_cases hm : mutatingToolNames.contains inp.toolName <;> simp [hm]

/-- Witness for C7: a mutating tool, an active session intent, a target path
and a specification are all ignored when the governance store is absent. -/
theorem preHook_no_orchestration_allows_witness :
    runPreHook (fun p => p)
      ⟨str ("write_to_file"), false, some (str ("i1")), some (str ("docs/readme.md")), none,
       some (str ("- id: i1\n  owned_scope:\n    - \"src/**\""))⟩ =
      PreDecision.allow :=
  preHook_no_orchestration_allows (fun p => p)
    ⟨str ("write_to_file"), false, some (str ("i1")), some (str ("docs/readme.md")), none,
     some (str ("- id: i1\n  owned_scope:\n    - \"src/**\""))⟩
    rfl

/-! ### Mutation classifier (src/hooks/classifyMutation.ts)

The declaration detector `countNewDeclarations` runs eight JavaScript
regexes (`\bexport\s+function\s+…` etc.) over the added block; it is
abstracted as a parameter `countDecls`, and the two float comparisons
(`overlapRatio >= 0.85`, `netAdditions >= prevLines.length * 0.2`) are
modelled by the exact rational comparisons, which agree with the IEEE
double computation for every line count below 10^15. -/

/-- src: `MutationClass`. -/
inductive MutationClass where
  | AST_REFACTOR
  | INTENT_EVOLUTION
deriving DecidableEq

/-- src: `content.replace(/\r\n/g, "\n")` — left-to-right, non-overlapping. -/
def replaceCRLF : Str → Str
  | [] => []
  | '\r' :: '\n' :: rest => '\n' :: replaceCRLF rest
  | c :: rest => c :: replaceCRLF rest

/-- src: `normalizeForComparison` — unify line endings, strip trailing
whitespace per line. -/
def normalizeForComparison (content : Str) : Str :=
  let unified := (replaceCRLF content).map (fun c => if c = '\r' then '\n' else c)
  joinChar '\n' ((splitOnChar '\n' unified).map trimRight)

/-- src: `classifyMutation(previousContent, newContent, _relativePath)` —
diff heuristics deciding refactor vs feature change (`countDecls` abstracts
the regex-based `countNewDeclarations`). -/
def classifyMutation (countDecls : Str → Nat) (previousContent : Option Str)
    (newContent : Str) (_relativePath : Str) : MutationClass :=
  match previousContent with
  | none => MutationClass.INTENT_EVOLUTION
  | some prev =>
    if prev = [] then MutationClass.INTENT_EVOLUTION
    else
      let prevNorm := normalizeForComparison prev
      let newNorm := normalizeForComparison newContent
      if prevNorm = newNorm then MutationClass.AST_REFACTOR
      else
        let prevLines := (splitOnChar '\n' prevNorm).filter (fun l => l.length > 0)
        let newLines := (splitOnChar '\n' newNorm).filter (fun l => l.length > 0)
        let addedLines := newLines.filter (fun l => !(prevLines.contains l))
        let removedLines := prevLines.filter (fun l => !(newLines.contains l))
        let netAdditions : Int := (addedLines.length : Int) - (removedLines.length : Int)
        let overlap := (newLines.filter (fun l => prevLines.contains l)).length
        if decide ((newLines.length : Int) - (prevLines.length : Int) ≤ 2) &&
           decide ((prevLines.length : Int) - (newLines.length : Int) ≤ 2) &&
           (decide (newLines.length = 0) || decide (20 * overlap ≥ 17 * newLines.length)) then
          MutationClass.AST_REFACTOR
        else if countDecls (joinChar '\n' addedLines) > 0 then
          MutationClass.INTENT_EVOLUTION
        else if decide (netAdditions ≥ 5) ||
                (decide (prevLines.length > 0) && decide (5 * netAdditions ≥ (prevLines.length : Int))) then
          MutationClass.INTENT_EVOLUTION
        else if decide (netAdditions ≤ 2) && decide (removedLines.length ≤ 2) then
          MutationClass.AST_REFACTOR
        else MutationClass.INTENT_EVOLUTION

/-- C4 (counterexample): the claim `classify(X, X) = AST_REFACTOR for any X`
fails at `X = ""`: the classifier's first rule treats an empty previous
content like a new file and returns INTENT_EVOLUTION. -/
theorem classify_idempotent_fails_on_empty :
    ¬ (classifyMutation (fun _ => 0) (some (str (""))) (str ("")) (str ("f.ts")) =
        MutationClass.AST_REFACTOR) := by
  decide

/-- C4 (amended): for every non-empty content X (and any declaration
counter), `classify(X, X)` is AST_REFACTOR — the normalized texts are
identical, so the pure-formatting rule fires. -/
theorem classify_idempotent_nonempty (countDecls : Str → Nat) (X rp : Str)
    (hX : X ≠ []) :
    classifyMutation countDecls (some X) X rp = MutationClass.AST_REFACTOR := by
  simp [classifyMutation, hX]

/-- Witness for C4 (amended). -/
theorem classify_idempotent_nonempty_witness :
    str ("line one\nline two") ≠ [] ∧
    classifyMutation (fun _ => 0) (some (str ("line one\nline two")))
      (str ("line one\nline two")) (str ("f.ts")) = MutationClass.AST_REFACTOR :=
  ⟨by decide,
   classify_idempotent_nonempty (fun _ => 0) (str ("line one\nline two")) (str ("f.ts"))
     (by decide)⟩

/-! ### Post-hook ledger writer (src/hooks/postHook.ts)

`createHash("sha256")…digest("hex")` is an external crypto primitive and is
abstracted as a parameter `sha256hex`; `uuidv7()`, `new Date()…` and
`getCurrentRevisionId` are inputs.  `JSON.stringify` is embedded concretely
(field order as in the record literal, `undefined` fields omitted, strings
escaped), and `fs.appendFile` is concatenation onto the ledger string. -/

/-- A decimal digit character. -/
def digitChar : Nat → Char
  | 0 => '0' | 1 => '1' | 2 => '2' | 3 => '3' | 4 => '4'
  | 5 => '5' | 6 => '6' | 7 => '7' | 8 => '8' | _ => '9'

/-- Most-significant-first decimal digits (`fuel` bounds the recursion and
is always supplied large enough). -/
def natDigitsAux : Nat → Nat → Str
  | 0, _ => []
  | fuel + 1, n => if n = 0 then [] else natDigitsAux fuel (n / 10) ++ [digitChar (n % 10)]

/-- Decimal rendering of a number, as `JSON.stringify` prints a Nat. -/
def natToChars (n : Nat) : Str := if n = 0 then ['0'] else natDigitsAux (n + 1) n

/-- A lower-case hexadecimal digit character. -/
def hexDigitChar : Nat → Char
  | 0 => '0' | 1 => '1' | 2 => '2' | 3 => '3' | 4 => '4'
  | 5 => '5' | 6 => '6' | 7 => '7' | 8 => '8' | 9 => '9'
  | 10 => 'a' | 11 => 'b' | 12 => 'c' | 13 => 'd' | 14 => 'e' | _ => 'f'

/-- How `JSON.stringify` escapes one character inside a string literal. -/
def jsonEscapeChar (c : Char) : Str :=
  if c = '"' then ['\\', '"']
  else if c = '\\' then ['\\', '\\']
  else if c = '\n' then ['\\', 'n']
  else if c = '\r' then ['\\', 'r']
  else if c = '\t' then ['\\', 't']
  else if c = '\x08' then ['\\', 'b']
  else if c = '\x0c' then ['\\', 'f']
  else if c.toNat < 0x20 then
    ['\\', 'u', '0', '0', hexDigitChar (c.toNat / 16), hexDigitChar (c.toNat % 16)]
  else [c]

/-- `JSON.stringify` string-body escaping. -/
def jsonEscape (s : Str) : Str := (s.map jsonEscapeChar).flatten

/-- A quoted JSON string literal. -/
def jsonStr (s : Str) : Str := '"' :: (jsonEscape s ++ ['"'])

/-- A JSON array from already serialized elements. -/
def jsonArr (elems : List Str) : Str := '[' :: (joinChar ',' elems ++ [']'])

/-- One `ranges` entry of a trace record. -/
structure TraceRange where
  start_line : Nat
  end_line : Nat
  content_hash : Str
deriving DecidableEq

/-- One `conversations` entry (`related` holds the intent id when present). -/
structure TraceConversation where
  entity_type : Str
  model_identifier : Option Str
  ranges : List TraceRange
  related : Option Str
deriving DecidableEq

/-- One `files` entry of a trace record. -/
structure TraceFile where
  relative_path : Str
  conversations : List TraceConversation
deriving DecidableEq

/-- src/hooks/types.ts `AgentTraceRecord` (one ledger line);
`revision_id` is the optional `vcs.revision_id`. -/
structure AgentTraceRecord where
  id : Str
  timestamp : Str
  revision_id : Option Str
  files : List TraceFile
deriving DecidableEq

/-- `JSON.stringify` of a range object. -/
def jsonRange (r : TraceRange) : Str :=
  str ("\x7b\"start_line\":") ++ natToChars r.start_line ++
  str (",\"end_line\":") ++ natToChars r.end_line ++
  str (",\"content_hash\":") ++ jsonStr r.content_hash ++ str ("\x7d")

/-- `JSON.stringify` of a conversation object (undefined fields omitted). -/
def jsonConv (c : TraceConversation) : Str :=
  str ("\x7b\"contributor\":\x7b\"entity_type\":") ++ jsonStr c.entity_type ++
  (match c.model_identifier with
   | some m => str (",\"model_identifier\":") ++ jsonStr m
   | none => []) ++
  str ("\x7d,\"ranges\":") ++ jsonArr (c.ranges.map jsonRange) ++
  (match c.related with
   | some v => str (",\"related\":[\x7b\"type\":\"specification\",\"value\":") ++
               jsonStr v ++ str ("\x7d]")
   | none => []) ++
  str ("\x7d")

/-- `JSON.stringify` of a file entry. -/
def jsonFile (f : TraceFile) : Str :=
  str ("\x7b\"relative_path\":") ++ jsonStr f.relative_path ++
  str (",\"conversations\":") ++ jsonArr (f.conversations.map jsonConv) ++ str ("\x7d")

/-- `JSON.stringify(record)`: one ledger line, without the trailing newline. -/
def jsonLine (rec : AgentTraceRecord) : Str :=
  str ("\x7b\"id\":") ++ jsonStr rec.id ++
  str (",\"timestamp\":") ++ jsonStr rec.timestamp ++
  (match rec.revision_id with
   | some rev => str (",\"vcs\":\x7b\"revision_id\":") ++ jsonStr rev ++ str ("\x7d")
   | none => []) ++
  str (",\"files\":") ++ jsonArr (rec.files.map jsonFile) ++ str ("\x7d")

/-- src: the `endLine` computation — `content.split("\n")`, not counting the
empty segment produced by a trailing final newline. -/
def endLineOf (content : Str) : Nat :=
  let lines := splitOnChar '\n' content
  if content.getLast? = some '\n' ∧ lines.getLast? = some [] then lines.length - 1
  else lines.length

/-- The inputs `runPostHook` reads: the guards, the two path sources, the
active intent, the target-file read-back (`none` models the `catch` path),
the revision id, and the generated id/timestamp/model identifier. -/
structure PostHookInput where
  orchExists : Bool
  toolName : Str
  paramsPath : Option Str
  writtenPath : Option Str
  activeIntent : Option Str
  fileRead : Option Str
  revisionId : Option Str
  recId : Str
  timestamp : Str
  modelId : Option Str

/-- src: `const relPath = (params.path as string) ?? writtenPath` composed
with the `if (!relPath) return` guard (`??` falls through only on
`undefined`, while the guard also rejects the falsy empty string): the
target path exactly when the source proceeds to build a record. -/
def postHookRelPath (inp : PostHookInput) : Option Str :=
  truthyStr (match inp.paramsPath with
    | some p => some p
    | none => inp.writtenPath)

/-- src: `runPostHook(context)` up to the append — the record it builds, or
`none` when it returns without appending (no `.orchestration`, a falsy
active intent on a non-write tool, not `write_to_file`, or a falsy path);
`related` carries the intent only when it is truthy
(`activeIntentId ? [{…}] : undefined`), like `revisionId && {vcs: …}`. -/
def postHookRecord (sha256hex : Str → Str) (inp : PostHookInput) : Option AgentTraceRecord :=
  if !inp.orchExists then none
  else if (truthyStr inp.activeIntent).isNone &&
          decide (inp.toolName ≠ str ("write_to_file")) then none
  else if inp.toolName = str ("write_to_file") then
    match postHookRelPath inp with
    | none => none
    | some relPath =>
      let hashLine : Str × Nat :=
        match inp.fileRead with
        | some content => (str ("sha256:") ++ sha256hex content, endLineOf content)
        | none => (str ("sha256:(unable-to-read)"), 1)
      some
        { id := inp.recId, timestamp := inp.timestamp,
          revision_id := truthyStr inp.revisionId,
          files := [{ relative_path := relPath,
                      conversations := [{ entity_type := str ("AI"),
                                          model_identifier := inp.modelId,
                                          ranges := [{ start_line := 1, end_line := hashLine.2,
                                                       content_hash := hashLine.1 }],
                                          related := truthyStr inp.activeIntent }] }] }
  else none

/-- src: the ledger effect of `runPostHook` — `fs.appendFile(tracePath,
JSON.stringify(record) + "\n")`, or no change when nothing is appended. -/
def runPostHook (sha256hex : Str → Str) (inp : PostHookInput) (ledger : Str) : Str :=
  match postHookRecord sha256hex inp with
  | none => ledger
  | some rec => ledger ++ (jsonLine rec ++ ['\n'])

/-- The ledger file after a sequence of post-hook runs, starting empty. -/
def ledgerAfter (sha256hex : Str → Str) (inps : List PostHookInput) : Str :=
  inps.foldl (fun L inp => runPostHook sha256hex inp L) []

/-- All ranges appearing anywhere in a record. -/
def rangesOfRecord (rec : AgentTraceRecord) : List TraceRange :=
  ((rec.files.map (fun f => f.conversations)).flatten.map (fun c => c.ranges)).flatten

/-- The line count as the claim words it: the number of newline-separated
segments of the content, excluding the final empty segment produced by a
trailing newline. -/
def claimLineCount (content : Str) : Nat :=
  let segs := splitOnChar '\n' content
  if content.getLast? = some '\n' then segs.dropLast.length else segs.length

/-- `splitOnChar` never returns the empty list. -/
theorem splitOnChar_ne_nil (c : Char) (l : Str) : splitOnChar c l ≠ [] := by
  cases l with
  | nil => simp [splitOnChar]
  | cons x xs =>
    unfold splitOnChar
    by_cases h : x = c
    · simp [h]
    · simp only [h, if_false]
      cases hs : splitOnChar c xs <;> simp

/-- A string ending in the separator splits into a list that ends with the
empty segment and has at least two segments. -/
theorem splitOnChar_getLast_of_getLast (c : Char) :
    ∀ l : Str, l.getLast? = some c →
      (splitOnChar c l).getLast? = some [] ∧ 2 ≤ (splitOnChar c l).length := by
  intro l
  induction l with
  | nil => intro h; simp at h
  | cons x xs ih =>
    intro h
    cases xs with
    | nil =>
      simp at h
      subst h
      simp [splitOnChar]
    | cons y ys =>
      rw [List.getLast?_cons_cons] at h
      obtain ⟨ih1, ih2⟩ := ih h
      unfold splitOnChar
      by_cases hx : x = c
      · rcases hs : splitOnChar c (y :: ys) with _ | ⟨h0, t0⟩
        · exact absurd hs (splitOnChar_ne_nil c (y :: ys))
        · rw [hs] at ih1 ih2
          constructor
          · simp [hx, hs, List.getLast?_cons_cons, ← ih1]
          · simp [hx, hs]
      · rcases hs : splitOnChar c (y :: ys) with _ | ⟨h0, t0⟩
        · exact absurd hs (splitOnChar_ne_nil c (y :: ys))
        · rw [hs] at ih1 ih2
          have ht0 : t0 ≠ [] := by
            intro he; rw [he] at ih2; simp at ih2
          constructor
          · simp only [hx, if_false, hs]
            rcases t0 with _ | ⟨z, zs⟩
            · exact absurd rfl ht0
            · rw [List.getLast?_cons_cons]
              rw [List.getLast?_cons_cons] at ih1
              exact ih1
          · simp only [hx, if_false, hs]
            simp at ih2 ⊢
            omega

/-- The source's `endLine` computation equals the claim's description of it. -/
theorem endLineOf_eq_claimLineCount (content : Str) :
    endLineOf content = claimLineCount content := by
  unfold endLineOf claimLineCount
  by_cases h : content.getLast? = some '\n'
  · obtain ⟨h1, _⟩ := splitOnChar_getLast_of_getLast '\n' content h
    simp [h, h1, List.length_dropLast]
  · simp [h]

/-- C10: a `write_to_file` post-hook run that appends builds a record with
exactly one range: start_line 1, end_line the number of newline-separated
lines excluding the trailing empty segment, and content_hash
`"sha256:" ++ hex-digest(content)` when the file read succeeds — or the
sentinel hash with start and end lines 1 when the read fails. -/
theorem postHook_write_range_and_hash (sha256hex : Str → Str) (inp : PostHookInput) (rp : Str)
    (horch : inp.orchExists = true)
    (htool : inp.toolName = str ("write_to_file"))
    (hpath : postHookRelPath inp = some rp) :
    ∃ rec, postHookRecord sha256hex inp = some rec ∧
      rec.files.map (fun f => f.relative_path) = [rp] ∧
      rangesOfRecord rec =
        [{ start_line := 1,
           end_line := match inp.fileRead with
             | some content => claimLineCount content
             | none => 1,
           content_hash := match inp.fileRead with
             | some content => str ("sha256:") ++ sha256hex content
             | none => str ("sha256:(unable-to-read)") }] := by
  cases hr : inp.fileRead with
  | some content =>
    refine ⟨{ id := inp.recId, timestamp := inp.timestamp,
              revision_id := truthyStr inp.revisionId,
              files := [{ relative_path := rp,
                          conversations := [{ entity_type := str ("AI"),
                                              model_identifier := inp.modelId,
                                              ranges := [{ start_line := 1,
                                                           end_line := endLineOf content,
                                                           content_hash := str ("sha256:") ++ sha256hex content }],
                                              related := truthyStr inp.activeIntent }] }] },
           ?_, ?_, ?_⟩
    · unfold postHookRecord
      rw [horch, htool, hpath, hr]
      simp
    · simp
    · simp [rangesOfRecord, hr, endLineOf_eq_claimLineCount]
  | none =>
    refine ⟨{ id := inp.recId, timestamp := inp.timestamp,
              revision_id := truthyStr inp.revisionId,
              files := [{ relative_path := rp,
                          conversations := [{ entity_type := str ("AI"),
                                              model_identifier := inp.modelId,
                                              ranges := [{ start_line := 1,
                                                           end_line := 1,
                                                           content_hash := str ("sha256:(unable-to-read)") }],
                                              related := truthyStr inp.activeIntent }] }] },
           ?_, ?_, ?_⟩
    · unfold postHookRecord
      rw [horch, htool, hpath, hr]
      simp
    · simp
    · simp [rangesOfRecord, hr]

/-- A concrete post-hook input used by the C10 witness. -/
def c10Input : PostHookInput :=
  { orchExists := true, toolName := str ("write_to_file"),
    paramsPath := some (str ("src/a.ts")), writtenPath := none,
    activeIntent := some (str ("i1")), fileRead := some (str ("hello\nworld\n")),
    revisionId := some (str ("abc123")), recId := str ("rec-1"),
    timestamp := str ("t0"), modelId := some (str ("m1")) }

/-- Witness for C10: a readable two-line file with a trailing newline. -/
theorem postHook_write_range_and_hash_witness :
    c10Input.orchExists = true ∧
    c10Input.toolName = str ("write_to_file") ∧
    postHookRelPath c10Input = some (str ("src/a.ts")) ∧
    (∃ rec, postHookRecord (fun _ => str ("d3adb33f")) c10Input = some rec ∧
      rec.files.map (fun f => f.relative_path) = [str ("src/a.ts")] ∧
      rangesOfRecord rec =
        [{ start_line := 1,
           end_line := match c10Input.fileRead with
             | some content => claimLineCount content
             | none => 1,
           content_hash := match c10Input.fileRead with
             | some content => str ("sha256:") ++ (fun _ => str ("d3adb33f")) content
             | none => str ("sha256:(unable-to-read)") }]) :=
  ⟨rfl, rfl, rfl,
   postHook_write_range_and_hash (fun _ => str ("d3adb33f")) c10Input (str ("src/a.ts"))
     rfl rfl rfl⟩

/-! ### C8: the ledger is append-only -/

/-- The records appended by a sequence of post-hook runs. -/
def recordsOf (sha256hex : Str → Str) (inps : List PostHookInput) : List AgentTraceRecord :=
  inps.filterMap (postHookRecord sha256hex)

/-- Decimal digits are not newlines. -/
theorem digitChar_ne_newline (n : Nat) : digitChar n ≠ '\n' := by
  unfold digitChar; split <;> decide

/-- Hexadecimal digits are not newlines. -/
theorem hexDigitChar_ne_newline (n : Nat) : hexDigitChar n ≠ '\n' := by
  unfold hexDigitChar; split <;> decide

/-- Rendered numbers contain no newline. -/
theorem natDigitsAux_ne_newline : ∀ fuel n : Nat, '\n' ∉ natDigitsAux fuel n := by
  intro fuel
  induction fuel with
  | zero => intro n h; simp [natDigitsAux] at h
  | succ f ih =>
    intro n h
    unfold natDigitsAux at h
    by_cases h0 : n = 0
    · simp [h0] at h
    · simp [h0] at h
      rcases h with h | h
      · exact ih _ h
      · exact digitChar_ne_newline _ h.symm

/-- Rendered numbers contain no newline. -/
theorem natToChars_ne_newline (n : Nat) : '\n' ∉ natToChars n := by
  unfold natToChars
  by_cases h0 : n = 0
  · simp [h0]
  · simp only [h0, if_false]
    exact natDigitsAux_ne_newline _ _

/-- Escaping any character produces no newline. -/
theorem jsonEscapeChar_ne_newline (c : Char) : '\n' ∉ jsonEscapeChar c := by
  unfold jsonEscapeChar
  split_ifs with h1 h2 h3 h4 h5 h6 h7 h8
  · decide
  · decide
  · decide
  · decide
  · decide
  · decide
  · decide
  · intro h
    rcases List.mem_cons.mp h with h | h
    · exact absurd h (by decide)
    rcases List.mem_cons.mp h with h | h
    · exact absurd h (by decide)
    rcases List.mem_cons.mp h with h | h
    · exact absurd h (by decide)
    rcases List.mem_cons.mp h with h | h
    · exact absurd h (by decide)
    rcases List.mem_cons.mp h with h | h
    · exact absurd h.symm (hexDigitChar_ne_newline _)
    rcases List.mem_cons.mp h with h | h
    · exact absurd h.symm (hexDigitChar_ne_newline _)
    · exact absurd h (List.not_mem_nil _)
  · intro h
    rcases List.mem_cons.mp h with h | h
    · exact h3 h.symm
    · exact absurd h (List.not_mem_nil _)

/-- Escaped string bodies contain no newline. -/
theorem jsonEscape_ne_newline (s : Str) : '\n' ∉ jsonEscape s := by
  intro h
  unfold jsonEscape at h
  rw [List.mem_flatten] at h
  obtain ⟨l, hl, hxl⟩ := h
  rw [List.mem_map] at hl
  obtain ⟨c, _, rfl⟩ := hl
  exact jsonEscapeChar_ne_newline c hxl

/-- Concatenation preserves newline-freeness. -/
theorem noLF_append {a b : Str} (ha : '\n' ∉ a) (hb : '\n' ∉ b) : '\n' ∉ a ++ b := by
  intro h
  rcases List.mem_append.mp h with h | h
  · exact ha h
  · exact hb h

/-- Serialized JSON strings contain no newline. -/
theorem jsonStr_ne_newline (s : Str) : '\n' ∉ jsonStr s := by
  intro h
  unfold jsonStr at h
  rcases List.mem_cons.mp h with h | h
  · exact absurd h (by decide)
  · rcases List.mem_append.mp h with h | h
    · exact jsonEscape_ne_newline s h
    · revert h; decide

/-- A character of a joined list is the separator or from a member. -/
theorem mem_joinChar (c x : Char) :
    ∀ ls : List Str, x ∈ joinChar c ls → x = c ∨ ∃ l ∈ ls, x ∈ l := by
  intro ls
  induction ls with
  | nil => intro h; simp [joinChar] at h
  | cons s rest ih =>
    cases rest with
    | nil =>
      intro h
      right
      exact ⟨s, by simp, by simpa [joinChar] using h⟩
    | cons r t =>
      intro h
      rw [joinChar] at h
      rcases List.mem_append.mp h with h | h
      · right; exact ⟨s, by simp, h⟩
      · rcases List.mem_cons.mp h with rfl | h
        · left; rfl
        · rcases ih h with h | ⟨l, hl, hxl⟩
          · left; exact h
          · right; exact ⟨l, by simp [hl], hxl⟩

/-- Serialized JSON arrays contain no newline when their elements do not. -/
theorem jsonArr_ne_newline (elems : List Str) (h : ∀ e ∈ elems, '\n' ∉ e) :
    '\n' ∉ jsonArr elems := by
  intro hx
  unfold jsonArr at hx
  rcases List.mem_cons.mp hx with hx | hx
  · exact absurd hx (by decide)
  · rcases List.mem_append.mp hx with hx | hx
    · rcases mem_joinChar ',' '\n' elems hx with hx | ⟨l, hl, hxl⟩
      · exact absurd hx (by decide)
      · exact h l hl hxl
    · revert hx; decide

/-- A serialized range contains no newline. -/
theorem jsonRange_ne_newline (r : TraceRange) : '\n' ∉ jsonRange r := by
  unfold jsonRange
  refine noLF_append (noLF_append (noLF_append (noLF_append (noLF_append (noLF_append
    (by decide) (natToChars_ne_newline _)) (by decide)) (natToChars_ne_newline _))
    (by decide)) (jsonStr_ne_newline _)) (by decide)

/-- A serialized conversation contains no newline. -/
theorem jsonConv_ne_newline (c : TraceConversation) : '\n' ∉ jsonConv c := by
  unfold jsonConv
  refine noLF_append (noLF_append (noLF_append (noLF_append (noLF_append
    (noLF_append (by decide) (jsonStr_ne_newline _)) ?_) (by decide)) ?_) ?_) (by decide)
  · cases c.model_identifier with
    | none => simp
    | some m => exact noLF_append (by decide) (jsonStr_ne_newline _)
  · refine jsonArr_ne_newline _ ?_
    intro e he
    rw [List.mem_map] at he
    obtain ⟨r, _, rfl⟩ := he
    exact jsonRange_ne_newline r
  · cases c.related with
    | none => simp
    | some v => exact noLF_append (noLF_append (by decide) (jsonStr_ne_newline _)) (by decide)

/-- A serialized file entry contains no newline. -/
theorem jsonFile_ne_newline (f : TraceFile) : '\n' ∉ jsonFile f := by
  unfold jsonFile
  refine noLF_append (noLF_append (noLF_append (noLF_append
    (by decide) (jsonStr_ne_newline _)) (by decide)) ?_) (by decide)
  refine jsonArr_ne_newline _ ?_
  intro e he
  rw [List.mem_map] at he
  obtain ⟨cv, _, rfl⟩ := he
  exact jsonConv_ne_newline cv

/-- A serialized ledger record contains no newline: each ledger line is one
record. -/
theorem jsonLine_ne_newline (rec : AgentTraceRecord) : '\n' ∉ jsonLine rec := by
  unfold jsonLine
  refine noLF_append (noLF_append (noLF_append (noLF_append (noLF_append (noLF_append
    (noLF_append (by decide) (jsonStr_ne_newline _)) (by decide))
    (jsonStr_ne_newline _)) ?_) (by decide)) ?_) (by decide)
  · cases rec.revision_id with
    | none => simp
    | some rev => exact noLF_append (noLF_append (by decide) (jsonStr_ne_newline _)) (by decide)
  · refine jsonArr_ne_newline _ ?_
    intro e he
    rw [List.mem_map] at he
    obtain ⟨f, _, rfl⟩ := he
    exact jsonFile_ne_newline f

/-- Splitting a string that starts with a separator-free block followed by
the separator peels off that block. -/
theorem splitOnChar_append_cons (c : Char) {xs : Str} (ys : Str) (hc : c ∉ xs) :
    splitOnChar c (xs ++ c :: ys) = xs :: splitOnChar c ys := by
  induction xs with
  | nil => simp [splitOnChar]
  | cons x t ih =>
    have hx : x ≠ c := by
      intro h; exact hc (by simp [h])
    have ht : c ∉ t := fun h => hc (List.mem_cons_of_mem _ h)
    show splitOnChar c (x :: (t ++ c :: ys)) = (x :: t) :: splitOnChar c ys
    rw [show splitOnChar c (x :: (t ++ c :: ys)) =
          if x = c then [] :: splitOnChar c (t ++ c :: ys)
          else match splitOnChar c (t ++ c :: ys) with
            | [] => [[x]]
            | h :: t' => (x :: h) :: t' from rfl]
    rw [if_neg hx, ih ht]

/-- The ledger fold appends exactly the serialized record lines. -/
theorem ledger_foldl (sha256hex : Str → Str) :
    ∀ (inps : List PostHookInput) (L : Str),
      inps.foldl (fun L inp => runPostHook sha256hex inp L) L =
      L ++ ((recordsOf sha256hex inps).map (fun r => jsonLine r ++ ['\n'])).flatten := by
  intro inps
  induction inps with
  | nil => intro L; simp [recordsOf]
  | cons i is ih =>
    intro L
    simp only [List.foldl_cons]
    rw [ih]
    unfold runPostHook
    cases h : postHookRecord sha256hex i with
    | none => simp [recordsOf, List.filterMap_cons, h]
    | some rec => simp [recordsOf, List.filterMap_cons, h]

/-- The lines of the ledger file are the serialized records followed by the
empty segment after the final newline. -/
theorem ledgerAfter_lines (sha256hex : Str → Str) (inps : List PostHookInput) :
    splitOnChar '\n' (ledgerAfter sha256hex inps) =
    (recordsOf sha256hex inps).map jsonLine ++ [[]] := by
  unfold ledgerAfter
  rw [ledger_foldl]
  simp only [List.nil_append]
  generalize recordsOf sha256hex inps = rs
  induction rs with
  | nil => simp [splitOnChar]
  | cons r t ih =>
    simp only [List.map_cons, List.flatten_cons]
    have hshape : (jsonLine r ++ ['\n']) ++ ((t.map (fun r => jsonLine r ++ ['\n'])).flatten) =
        jsonLine r ++ '\n' :: ((t.map (fun r => jsonLine r ++ ['\n'])).flatten) := by
      simp
    rw [hshape, splitOnChar_append_cons '\n' _ (jsonLine_ne_newline r), ih]
    simp

/-- When every run appends, each input contributes exactly one record. -/
theorem recordsOf_length (sha256hex : Str → Str) :
    ∀ inps : List PostHookInput,
      (∀ i ∈ inps, (postHookRecord sha256hex i).isSome) →
      (recordsOf sha256hex inps).length = inps.length := by
  intro inps
  induction inps with
  | nil => intro h; simp [recordsOf]
  | cons i is ih =>
    intro h
    have hi := h i (by simp)
    obtain ⟨rec, hrec⟩ := Option.isSome_iff_exists.mp hi
    have his : ∀ j ∈ is, (postHookRecord sha256hex j).isSome := by
      intro j hj; exact h j (by simp [hj])
    have := ih his
    simp only [recordsOf, List.filterMap_cons, hrec, List.length_cons, List.length]
    simp only [recordsOf] at this
    omega

/-- When every run appends, taking a prefix of the runs takes the same
prefix of the records. -/
theorem recordsOf_take (sha256hex : Str → Str) :
    ∀ inps : List PostHookInput,
      (∀ i ∈ inps, (postHookRecord sha256hex i).isSome) →
      ∀ k : Nat,
        recordsOf sha256hex (inps.take k) = (recordsOf sha256hex inps).take k := by
  intro inps
  induction inps with
  | nil => intro h k; simp [recordsOf]
  | cons i is ih =>
    intro h k
    have hi := h i (by simp)
    obtain ⟨rec, hrec⟩ := Option.isSome_iff_exists.mp hi
    have his : ∀ j ∈ is, (postHookRecord sha256hex j).isSome := by
      intro j hj; exact h j (by simp [hj])
    cases k with
    | zero => simp [recordsOf]
    | succ n =>
      simp only [List.take_succ_cons]
      simp only [recordsOf, List.filterMap_cons, hrec]
      rw [List.take_succ_cons]
      have := ih his n
      simp only [recordsOf] at this
      rw [this]

/-- C8: the ledger is append-only — after a sequence of successful post-hook
appends, the first N-1 lines of the file are exactly the lines of the file
as it stood after the first N-1 appends (its record lines, dropping only the
empty segment after the final newline), and the earlier file state is a
byte-for-byte prefix of the later one: `runPostHook` never rewrites,
reorders or deletes existing lines. -/
theorem ledger_append_only (sha256hex : Str → Str) (inps : List PostHookInput)
    (h : ∀ i ∈ inps, (postHookRecord sha256hex i).isSome) :
    (splitOnChar '\n' (ledgerAfter sha256hex inps)).take (inps.length - 1) =
      (splitOnChar '\n' (ledgerAfter sha256hex (inps.take (inps.length - 1)))).dropLast ∧
    ∃ rest, ledgerAfter sha256hex inps =
      ledgerAfter sha256hex (inps.take (inps.length - 1)) ++ rest := by
  constructor
  · rw [ledgerAfter_lines, ledgerAfter_lines, recordsOf_take sha256hex inps h]
    have hlen : inps.length - 1 ≤ ((recordsOf sha256hex inps).map jsonLine).length := by
      rw [List.length_map, recordsOf_length sha256hex inps h]
      omega
    rw [List.take_append_of_le_length hlen, ← List.map_take]
    simp
  · have key : ledgerAfter sha256hex inps =
        ledgerAfter sha256hex (inps.take (inps.length - 1)) ++
          ((recordsOf sha256hex (inps.drop (inps.length - 1))).map
            (fun r => jsonLine r ++ ['\n'])).flatten := by
      conv_lhs =>
        rw [show inps = inps.take (inps.length - 1) ++ inps.drop (inps.length - 1) from
              (List.take_append_drop _ _).symm]
      unfold ledgerAfter
      rw [List.foldl_append, ledger_foldl]
    exact ⟨_, key⟩

/-- Concrete inputs for the C8 witness: two successful write appends. -/
def c8Inputs : List PostHookInput :=
  [{ orchExists := true, toolName := str ("write_to_file"),
     paramsPath := some (str ("src/a.ts")), writtenPath := none,
     activeIntent := some (str ("i1")), fileRead := some (str ("one\n")),
     revisionId := none, recId := str ("r1"), timestamp := str ("t1"), modelId := none },
   { orchExists := true, toolName := str ("write_to_file"),
     paramsPath := some (str ("src/b.ts")), writtenPath := none,
     activeIntent := some (str ("i1")), fileRead := some (str ("two\n")),
     revisionId := none, recId := str ("r2"), timestamp := str ("t2"), modelId := none }]

/-- Witness for C8: two concrete appends. -/
theorem ledger_append_only_witness :
    (∀ i ∈ c8Inputs, (postHookRecord (fun _ => str ("h")) i).isSome) ∧
    ((splitOnChar '\n' (ledgerAfter (fun _ => str ("h")) c8Inputs)).take (c8Inputs.length - 1) =
      (splitOnChar '\n'
        (ledgerAfter (fun _ => str ("h")) (c8Inputs.take (c8Inputs.length - 1)))).dropLast ∧
    ∃ rest, ledgerAfter (fun _ => str ("h")) c8Inputs =
      ledgerAfter (fun _ => str ("h")) (c8Inputs.take (c8Inputs.length - 1)) ++ rest) :=
  ⟨by decide, ledger_append_only (fun _ => str ("h")) c8Inputs (by decide)⟩

/-! ### Full gate with staleness and approval (C2, C3)

The Phase-4 pre-hook that implements the staleness (optimistic-lock) check
and the Phase-2 destructive-approval check is not part of the sources here:
only its callers (`runPreHookOnly` passing `PreHookOptions`), its types
(`PreHookOptions.requestDestructiveApproval`), and its constants
(`DESTRUCTIVE_TOOL_NAMES`, `INTENT_IGNORE_FILE`) are.  The gate below is
therefore modelled from the specification and reuses the source-derived
pieces (`mutatingToolNames`, `destructiveToolNames`, `loadIntentFromYaml`,
`matchScope`). -/

/-- Modelled from the spec: §6 — the approval-required list is a text file
with one intent id per line, `#`-prefixed comments ignored. -/
def parseIntentIgnore (fileContent : Option Str) : List Str :=
  match fileContent with
  | none => []
  | some t =>
    ((splitOnChar '\n' t).map jsTrim).filter
      (fun l => !l.isEmpty && !(startsWithStr (str ("#")) l))

/-- The gate's outcome: allow, or a denial with one of the documented
machine-readable codes. -/
inductive GateDecision where
  | allow
  | intentRequired
  | intentNotFound (intentId : Str)
  | scopeViolation (targetPath : Str)
  | staleFile (targetPath : Str)
  | userRejected
deriving DecidableEq

/-- The inputs of one gate evaluation: governance toggle, action descriptor,
session state, and the backing stores (association lists path → content and
path → observed hash; the specification and approval files as optional
text).  The injected asynchronous approval callback is modelled by its
result: `none` when no callback is provided, `some b` for a callback that
resolves to `b`. -/
structure GateInput where
  govEnabled : Bool
  toolName : Str
  activeIntent : Option Str
  specContent : Option Str
  paths : List Str
  store : List (Str × Str)
  observed : List (Str × Str)
  approvalContent : Option Str
  approvalCallback : Option Bool

/-- Association-list lookup (path-keyed stores). -/
def lookupAssoc (m : List (Str × Str)) (k : Str) : Option Str :=
  (m.find? (fun kv => decide (kv.fst = k))).map (fun kv => kv.snd)

/-- Modelled from the spec: §4.4 step 5 — the first target path that
matches no owned_scope pattern (`none` when owned_scope is empty:
unrestricted). -/
def scopeOffender (intent : ActiveIntentEntry) (paths : List Str) : Option Str :=
  let scopes := intent.owned_scope.getD []
  if scopes.isEmpty then none
  else paths.find? (fun p => !(scopes.any (fun scope => matchScope scope p)))

/-- Modelled from the spec: §4.4 step 6 — the first target path that exists
on the backing store whose current content hash differs from the hash the
session previously observed for it. -/
def staleOffender (hash : Str → Str) (inp : GateInput) : Option Str :=
  inp.paths.find? (fun p =>
    match lookupAssoc inp.store p, lookupAssoc inp.observed p with
    | some content, some observedHash => decide (observedHash ≠ hash content)
    | _, _ => false)

/-- Modelled from the spec: §4.4 — the pre-action gate evaluated in strict
order (governance-disabled, action-kind filter, intent-required,
intent-resolvable, scope check, staleness check, destructive-approval
gate); the first failing step short-circuits with its reason code.  The
content-hash function is the abstracted crypto primitive. -/
def gatePreCheck (hash : Str → Str) (inp : GateInput) : GateDecision :=
  if !inp.govEnabled then GateDecision.allow
  else if !(mutatingToolNames.contains inp.toolName) then GateDecision.allow
  else
    match inp.activeIntent with
    | none => GateDecision.intentRequired
    | some intentId =>
      match loadIntentFromYaml inp.specContent intentId with
      | none => GateDecision.intentNotFound intentId
      | some intent =>
        match scopeOffender intent inp.paths with
        | some badPath => GateDecision.scopeViolation badPath
        | none =>
          match staleOffender hash inp with
          | some stalePath => GateDecision.staleFile stalePath
          | none =>
            if destructiveToolNames.contains inp.toolName &&
               (parseIntentIgnore inp.approvalContent).contains intentId then
              match inp.approvalCallback with
              | some false => GateDecision.userRejected
              | some true => GateDecision.allow
              | none => GateDecision.allow
            else GateDecision.allow

/-- C2: a mutating action whose earlier gate steps pass (governance on,
intent selected and resolvable, scope satisfied) is denied with stale_file
whenever some target path exists on the backing store and its current
content hash differs from the hash the session previously observed. -/
theorem gate_stale_file_denial (hash : Str → Str) (inp : GateInput)
    (intentId : Str) (intent : ActiveIntentEntry) (stalePath : Str)
    (hgov : inp.govEnabled = true)
    (hmut : mutatingToolNames.contains inp.toolName = true)
    (hact : inp.activeIntent = some intentId)
    (hres : loadIntentFromYaml inp.specContent intentId = some intent)
    (hscope : scopeOffender intent inp.paths = none)
    (hstale : staleOffender hash inp = some stalePath) :
    gatePreCheck hash inp = GateDecision.staleFile stalePath := by
  have hmut' : inp.toolName ∈ mutatingToolNames := by simpa using hmut
  simp [gatePreCheck, hgov, hmut', hact, hres, hscope, hstale]

/-- Witness for C2: the session observed hash(\"v1\") for src/a.ts, the
backing store now holds \"v2\" — the gate denies stale_file (the hash
function is instantiated with the identity, so the hashes differ). -/
theorem gate_stale_file_denial_witness :
    (loadIntentFromYaml (some (str ("- id: i1\n  owned_scope:\n    - \"src/**\"")))
        (str ("i1")) = some { id := str ("i1"), owned_scope := some [str ("src/**")] }) ∧
    gatePreCheck (fun content => content)
      { govEnabled := true, toolName := str ("write_to_file"),
        activeIntent := some (str ("i1")),
        specContent := some (str ("- id: i1\n  owned_scope:\n    - \"src/**\"")),
        paths := [str ("src/a.ts")],
        store := [(str ("src/a.ts"), str ("v2"))],
        observed := [(str ("src/a.ts"), str ("v1"))],
        approvalContent := none, approvalCallback := none } =
      GateDecision.staleFile (str ("src/a.ts")) :=
  ⟨by decide,
   gate_stale_file_denial (fun content => content)
     { govEnabled := true, toolName := str ("write_to_file"),
       activeIntent := some (str ("i1")),
       specContent := some (str ("- id: i1\n  owned_scope:\n    - \"src/**\"")),
       paths := [str ("src/a.ts")],
       store := [(str ("src/a.ts"), str ("v2"))],
       observed := [(str ("src/a.ts"), str ("v1"))],
       approvalContent := none, approvalCallback := none }
     (str ("i1")) { id := str ("i1"), owned_scope := some [str ("src/**")] }
     (str ("src/a.ts")) rfl (by decide) rfl (by decide) (by decide) (by decide)⟩

/-- C3: for a destructive action whose active intent is in the
approval-required list, with every earlier gate step passing: no callback
means the action is treated as approved and allowed; with a callback, the
gate denies user_rejected exactly when the callback rejects. -/
theorem gate_destructive_approval (hash : Str → Str) (inp : GateInput)
    (intentId : Str) (intent : ActiveIntentEntry)
    (hgov : inp.govEnabled = true)
    (hmut : mutatingToolNames.contains inp.toolName = true)
    (hact : inp.activeIntent = some intentId)
    (hres : loadIntentFromYaml inp.specContent intentId = some intent)
    (hscope : scopeOffender intent inp.paths = none)
    (hstale : staleOffender hash inp = none)
    (hdest : destructiveToolNames.contains inp.toolName = true)
    (happrov : (parseIntentIgnore inp.approvalContent).contains intentId = true) :
    (inp.approvalCallback = none → gatePreCheck hash inp = GateDecision.allow) ∧
    (inp.approvalCallback = some true → gatePreCheck hash inp = GateDecision.allow) ∧
    (inp.approvalCallback = some false → gatePreCheck hash inp = GateDecision.userRejected) ∧
    (gatePreCheck hash inp = GateDecision.userRejected ↔ inp.approvalCallback = some false) := by
  have hmut' : inp.toolName ∈ mutatingToolNames := by simpa using hmut
  have hdest' : inp.toolName ∈ destructiveToolNames := by simpa using hdest
  have happrov' : intentId ∈ parseIntentIgnore inp.approvalContent := by simpa using happrov
  cases hcb : inp.approvalCallback with
  | none =>
    simp [gatePreCheck, hgov, hmut', hact, hres, hscope, hstale, hdest', happrov', hcb]
  | some b =>
    cases b <;>
      simp [gatePreCheck, hgov, hmut', hact, hres, hscope, hstale, hdest', happrov', hcb]

/-- Concrete gate input for the C3 witness: destructive tool, intent listed
in the approval file, callback rejecting. -/
def gateC3Input : GateInput :=
  { govEnabled := true, toolName := str ("execute_command"),
    activeIntent := some (str ("i1")),
    specContent := some (str ("- id: i1")),
    paths := [], store := [], observed := [],
    approvalContent := some (str ("# approval list\ni1")),
    approvalCallback := some false }

/-- Witness for C3: a destructive tool, the intent listed in .intentignore
(with a comment line), and a callback that rejects — the gate denies
user_rejected, and the iff ties the denial to the rejection. -/
theorem gate_destructive_approval_witness :
    (destructiveToolNames.contains (str ("execute_command")) = true) ∧
    ((parseIntentIgnore (some (str ("# approval list\ni1")))).contains (str ("i1")) = true) ∧
    ((some false = (none : Option Bool) →
        gatePreCheck (fun content => content) gateC3Input = GateDecision.allow) ∧
     (some false = some true →
        gatePreCheck (fun content => content) gateC3Input = GateDecision.allow) ∧
     (some false = some false →
        gatePreCheck (fun content => content) gateC3Input = GateDecision.userRejected) ∧
     (gatePreCheck (fun content => content) gateC3Input = GateDecision.userRejected ↔
        some false = some false)) := by
  refine ⟨by decide, by decide, ?_⟩
  have h := gate_destructive_approval (fun content => content) gateC3Input
    (str ("i1")) { id := str ("i1") }
    rfl (by decide) rfl (by decide) (by decide) (by decide) (by decide) (by decide)
  exact h

/-! ### Spatial map updater (src/hooks/intentMap.ts: updateIntentMapForEvolution)

The file is processed line by line: markdown table rows after the separator
row whose first cell is the intent id get the path appended to their third
(key-paths) cell unless the cell already contains it.  `fs.readFile` /
`fs.writeFile` are abstracted: the function maps old content to new
content. -/

/-- `` ` ${x} ` `` padding of one rebuilt cell. -/
def padSp (x : Str) : Str := ' ' :: (x ++ [' '])

/-- The rebuilt row `` `| ${cells[0]} | ${newCell2} | ${newKeyPaths} |` ``. -/
def mkRow (a b c : Str) : Str :=
  '|' :: (padSp a ++ '|' :: (padSp b ++ '|' :: (padSp c ++ ['|'])))

/-- src: `trimmed.split("|").map((c) => c.trim()).filter(Boolean)`. -/
def rowCells (t : Str) : List Str :=
  ((splitOnChar '|' t).map jsTrim).filter (fun c => !c.isEmpty)

/-- The character class `[\s\-:]` of the separator-row regex. -/
def sepClass (c : Char) : Bool := isWs c || c = '-' || c = ':'

/-- Scan after the leading `|`: one or more class characters then `|`. -/
def sepScan : Str → Bool → Bool
  | [], _ => false
  | c :: cs, seen =>
    if c = '|' then seen
    else if sepClass c then sepScan cs true
    else false

/-- src: `trimmed.match(/^\|[\s\-:]+\|/)` — an anchored separator-row test. -/
def isSepShaped : Str → Bool
  | '|' :: rest => sepScan rest false
  | _ => false

/-- One iteration of the updater's line loop: returns the new
`separatorPassed` flag and the emitted line (`p` is the already-trimmed
relative path). -/
def processLine (intentId p : Str) (sp : Bool) (line : Str) : Bool × Str :=
  let t := jsTrim line
  if t.head? = some '|' ∧ t.getLast? = some '|' then
    if isSepShaped t then (true, line)
    else if sp then
      match rowCells t with
      | c0 :: c1 :: kp :: _ =>
        if c0 = intentId then
          if !(strIncludes p kp) then
            (sp, mkRow c0 c1 (if kp.isEmpty then p else kp ++ str (", ") ++ p))
          else (sp, line)
        else (sp, line)
      | _ => (sp, line)
    else (sp, line)
  else (sp, line)

/-- The line loop threading `separatorPassed` through the lines. -/
def runLines (intentId p : Str) : Bool → List Str → List Str
  | _, [] => []
  | sp, l :: ls =>
    let r := processLine intentId p sp l
    r.2 :: runLines intentId p r.1 ls

/-- src: `updateIntentMapForEvolution(cwd, intentId, relativePath)` as a
content transformation (an unreadable file, which makes the source return
without writing, corresponds to not calling this). -/
def updateIntentMapForEvolution (intentId relativePath content : Str) : Str :=
  joinChar '\n' (runLines intentId (jsTrim relativePath) false (splitOnChar '\n' content))

/-- A concrete three-line intent map table. -/
def c9Map : Str :=
  str ("| Intent | Name | Key Paths |\n| --- | --- | --- |\n| I1 | n | x |")

/-- C9 (counterexample): for a relative path containing `|` the update is
not idempotent — the rebuilt key-paths cell is re-split at the embedded
`|` on the second run, the substring test fails again, and the path is
appended a second time. -/
theorem intentMap_not_idempotent_pipe :
    updateIntentMapForEvolution (str ("I1")) (str ("a|b"))
      (updateIntentMapForEvolution (str ("I1")) (str ("a|b")) c9Map) ≠
    updateIntentMapForEvolution (str ("I1")) (str ("a|b")) c9Map := by
  decide

/-! ### Trim and split toolbox for the idempotence proof -/

/-- Dropping a leading whitespace character commutes into `trimLeft`. -/
theorem trimLeft_cons_ws {c : Char} (h : isWs c = true) (z : Str) :
    trimLeft (c :: z) = trimLeft z := by
  simp [trimLeft, List.dropWhile_cons, h]

/-- Dropping a trailing whitespace character commutes into `trimRight`. -/
theorem trimRight_append_ws {c : Char} (h : isWs c = true) (z : Str) :
    trimRight (z ++ [c]) = trimRight z := by
  simp [trimRight, List.dropWhile_cons, h]

/-- `trim` ignores a leading whitespace character. -/
theorem jsTrim_cons_ws {c : Char} (h : isWs c = true) (z : Str) :
    jsTrim (c :: z) = jsTrim z := by
  simp [jsTrim, trimLeft_cons_ws h]

/-- `trim` ignores a trailing whitespace character. -/
theorem jsTrim_append_ws {c : Char} (h : isWs c = true) (z : Str) :
    jsTrim (z ++ [c]) = jsTrim z := by
  unfold jsTrim trimLeft
  rw [List.dropWhile_append]
  by_cases he : ((z.dropWhile isWs).isEmpty) = true
  · rw [if_pos he]
    have hz : z.dropWhile isWs = [] := by
      rwa [List.isEmpty_iff] at he
    rw [hz]
    simp [List.dropWhile_cons, h, trimRight]
  · rw [if_neg he]
    exact trimRight_append_ws h _

/-- The first character surviving `dropWhile` fails the predicate. -/
theorem dropWhile_first_false {pw : Char → Bool} :
    ∀ (l : Str) (x : Char) (xs : Str), l.dropWhile pw = x :: xs → pw x = false := by
  intro l
  induction l with
  | nil => intro x xs h; simp at h
  | cons a t ih =>
    intro x xs h
    rw [List.dropWhile_cons] at h
    by_cases ha : pw a = true
    · rw [if_pos ha] at h
      exact ih _ _ h
    · rw [if_neg ha] at h
      cases h
      simpa using ha

/-- A string whose first and last characters are not whitespace is fixed by
`trim`. -/
theorem jsTrim_eq_self {l : Str}
    (h1 : ∀ x, l.head? = some x → isWs x = false)
    (h2 : ∀ x, l.getLast? = some x → isWs x = false) : jsTrim l = l := by
  have htl : trimLeft l = l := by
    cases l with
    | nil => rfl
    | cons a t =>
      have := h1 a rfl
      simp [trimLeft, List.dropWhile_cons, this]
  have htr : trimRight l = l := by
    unfold trimRight
    rcases hr : l.reverse with _ | ⟨b, r⟩
    · simp at hr; simp [hr]
    · have hb : l.getLast? = some b := by
        rw [← List.head?_reverse, hr]; rfl
      have := h2 b hb
      rw [List.dropWhile_cons, if_neg (by simp [this])]
      rw [← hr, List.reverse_reverse]
  unfold jsTrim
  rw [htl, htr]

/-- Characters of the trimmed string come from the original. -/
theorem mem_of_mem_jsTrim {x : Char} {l : Str} (h : x ∈ jsTrim l) : x ∈ l := by
  unfold jsTrim trimRight at h
  rw [List.mem_reverse] at h
  have h1 : x ∈ (trimLeft l).reverse := (List.dropWhile_sublist _).subset h
  rw [List.mem_reverse] at h1
  exact (List.dropWhile_sublist _).subset h1

/-- `dropWhile` leaves a suffix: some prefix was dropped. -/
theorem dropWhile_suffix_decomp (pw : Char → Bool) :
    ∀ l : Str, ∃ t, t ++ l.dropWhile pw = l := by
  intro l
  induction l with
  | nil => exact ⟨[], rfl⟩
  | cons a xs ih =>
    by_cases ha : pw a = true
    · obtain ⟨t, ht⟩ := ih
      exact ⟨a :: t, by simp [List.dropWhile_cons, ha, ht]⟩
    · exact ⟨[], by simp [List.dropWhile_cons, ha]⟩

/-- A non-empty `trimRight` keeps the original head. -/
theorem head_trimRight {z : Str} (h : trimRight z ≠ []) :
    (trimRight z).head? = z.head? := by
  obtain ⟨t, ht⟩ := dropWhile_suffix_decomp isWs z.reverse
  have hz : (z.reverse.dropWhile isWs).reverse ++ t.reverse = z := by
    rw [← List.reverse_append, ht, List.reverse_reverse]
  unfold trimRight at h ⊢
  rcases hd : (z.reverse.dropWhile isWs).reverse with _ | ⟨x, xs⟩
  · exact absurd hd h
  · rw [← hz, hd]
    simp

/-- `trim` is idempotent. -/
theorem jsTrim_idem (l : Str) : jsTrim (jsTrim l) = jsTrim l := by
  rcases hl : jsTrim l with _ | ⟨x, xs⟩
  · rfl
  · rw [← hl]
    apply jsTrim_eq_self
    · intro y hy
      have hne : trimRight (trimLeft l) ≠ [] := by
        rw [show trimRight (trimLeft l) = jsTrim l from rfl, hl]
        simp
      have hh : (jsTrim l).head? = (trimLeft l).head? := head_trimRight hne
      rw [hh] at hy
      rcases htl : trimLeft l with _ | ⟨a, t⟩
      · rw [htl] at hy; simp at hy
      · rw [htl] at hy
        simp at hy
        subst hy
        exact dropWhile_first_false l a t htl
    · intro y hy
      unfold jsTrim trimRight at hy
      rw [List.getLast?_reverse] at hy
      rcases hdw : (trimLeft l).reverse.dropWhile isWs with _ | ⟨a, t⟩
      · rw [hdw] at hy; simp at hy
      · rw [hdw] at hy
        simp at hy
        subst hy
        exact dropWhile_first_false _ a t hdw

/-- The length of a trimmed string does not exceed the original. -/
theorem length_jsTrim_le (l : Str) : (jsTrim l).length ≤ l.length := by
  have h1 : (trimLeft l).length ≤ l.length := (List.dropWhile_sublist _).length_le
  have h2 : (jsTrim l).length ≤ (trimLeft l).length := by
    unfold jsTrim trimRight
    rw [List.length_reverse]
    calc ((trimLeft l).reverse.dropWhile isWs).length
        ≤ (trimLeft l).reverse.length := (List.dropWhile_sublist _).length_le
      _ = (trimLeft l).length := List.length_reverse _
  omega

/-- The head of a trim-fixed non-empty string is not whitespace. -/
theorem head_not_ws_of_trim_fixed {l : Str} (h : jsTrim l = l) {x : Char} {xs : Str}
    (he : l = x :: xs) (hx : isWs x = true) : False := by
  subst he
  have h2 : jsTrim (x :: xs) = jsTrim xs := jsTrim_cons_ws hx xs
  have h3 : (jsTrim xs).length ≤ xs.length := length_jsTrim_le xs
  rw [h] at h2
  have : (x :: xs).length = (jsTrim xs).length := by rw [← h2]
  simp at this
  omega

/-- The last character of a trim-fixed non-empty string is not whitespace. -/
theorem last_not_ws_of_trim_fixed {l : Str} (h : jsTrim l = l) {x : Char}
    (he : l.getLast? = some x) (hx : isWs x = true) : False := by
  have hne : l ≠ [] := by
    intro h0; rw [h0] at he; simp at he
  have hgl : l.getLast hne = x := by
    have h1 := List.getLast?_eq_getLast l hne
    rw [h1] at he
    exact Option.some_inj.mp he
  have hdec : l.dropLast ++ [x] = l := by
    rw [← hgl]
    exact List.dropLast_append_getLast hne
  have h2 : jsTrim l = jsTrim l.dropLast := by
    conv_lhs => rw [← hdec]
    exact jsTrim_append_ws hx _
  rw [h] at h2
  have h3 : (jsTrim l.dropLast).length ≤ l.dropLast.length := length_jsTrim_le _
  have h4 : l.dropLast.length = l.length - 1 := List.length_dropLast l
  have h5 : 0 < l.length := List.length_pos.mpr hne
  have h6 : l.length = (jsTrim l.dropLast).length := by rw [← h2]
  omega

/-- Segments produced by `splitOnChar` do not contain the separator. -/
theorem not_mem_of_mem_splitOnChar (c : Char) :
    ∀ (l : Str) (s : Str), s ∈ splitOnChar c l → c ∉ s := by
  intro l
  induction l with
  | nil =>
    intro s hs
    simp [splitOnChar] at hs
    simp [hs]
  | cons x xs ih =>
    intro s hs
    unfold splitOnChar at hs
    by_cases hx : x = c
    · rw [if_pos hx] at hs
      rcases List.mem_cons.mp hs with rfl | hs
      · simp
      · exact ih s hs
    · rw [if_neg hx] at hs
      rcases hsp : splitOnChar c xs with _ | ⟨h0, t0⟩
      · exact absurd hsp (splitOnChar_ne_nil c xs)
      · rw [hsp] at hs
        rcases List.mem_cons.mp hs with rfl | hs
        · intro hm
          rcases List.mem_cons.mp hm with rfl | hm
          · exact hx rfl
          · exact ih h0 (by rw [hsp]; simp) hm
        · exact ih s (by rw [hsp]; simp [hs])

/-- Characters of a segment come from the split string. -/
theorem mem_of_mem_splitOnChar (c : Char) :
    ∀ (l : Str) (s : Str) (x : Char), s ∈ splitOnChar c l → x ∈ s → x ∈ l := by
  intro l
  induction l with
  | nil =>
    intro s x hs hx
    simp [splitOnChar] at hs
    rw [hs] at hx
    simp at hx
  | cons a xs ih =>
    intro s x hs hx
    unfold splitOnChar at hs
    by_cases ha : a = c
    · rw [if_pos ha] at hs
      rcases List.mem_cons.mp hs with rfl | hs
      · simp at hx
      · exact List.mem_cons_of_mem _ (ih s x hs hx)
    · rw [if_neg ha] at hs
      rcases hsp : splitOnChar c xs with _ | ⟨h0, t0⟩
      · exact absurd hsp (splitOnChar_ne_nil c xs)
      · rw [hsp] at hs
        rcases List.mem_cons.mp hs with rfl | hs
        · rcases List.mem_cons.mp hx with rfl | hx
          · simp
          · exact List.mem_cons_of_mem _ (ih h0 x (by rw [hsp]; simp) hx)
        · exact List.mem_cons_of_mem _ (ih s x (by rw [hsp]; simp [hs]) hx)

/-- A separator-free string splits to itself. -/
theorem splitOnChar_eq_single (c : Char) :
    ∀ l : Str, c ∉ l → splitOnChar c l = [l] := by
  intro l
  induction l with
  | nil => intro h; rfl
  | cons x xs ih =>
    intro h
    have hx : x ≠ c := by
      intro he; exact h (by simp [he])
    have hxs : c ∉ xs := fun hm => h (List.mem_cons_of_mem _ hm)
    unfold splitOnChar
    rw [if_neg hx, ih hxs]

/-- Joining separator-free segments and re-splitting recovers them. -/
theorem splitOnChar_joinChar (c : Char) :
    ∀ ls : List Str, ls ≠ [] → (∀ s ∈ ls, c ∉ s) →
      splitOnChar c (joinChar c ls) = ls := by
  intro ls
  induction ls with
  | nil => intro h; exact absurd rfl h
  | cons s rest ih =>
    intro _ hmem
    cases rest with
    | nil =>
      rw [joinChar]
      exact splitOnChar_eq_single c s (hmem s (by simp))
    | cons r t =>
      rw [joinChar]
      rw [splitOnChar_append_cons c _ (hmem s (by simp))]
      rw [ih (by simp) (fun u hu => hmem u (by simp [hu]))]

/-- `isPrefixOf` is reflexive. -/
theorem isPrefixOf_self : ∀ l : Str, l.isPrefixOf l = true := by
  intro l
  induction l with
  | nil => rfl
  | cons a t ih => simp [List.isPrefixOf, ih]

/-- The empty needle is always included. -/
theorem strIncludes_nil (hay : Str) : strIncludes [] hay = true := by
  cases hay with
  | nil => rfl
  | cons c rest => simp [strIncludes, List.isPrefixOf]

/-- A string is included in anything that ends with it. -/
theorem strIncludes_append_self : ∀ (a p : Str), strIncludes p (a ++ p) = true := by
  intro a p
  induction a with
  | nil =>
    simp only [List.nil_append]
    cases p with
    | nil => rfl
    | cons c rest =>
      rw [show strIncludes (c :: rest) (c :: rest) =
            ((c :: rest).isPrefixOf (c :: rest) || strIncludes (c :: rest) rest) from rfl]
      rw [isPrefixOf_self]
      rfl
  | cons x t ih =>
    simp only [List.cons_append]
    rw [show strIncludes p (x :: (t ++ p)) =
          (p.isPrefixOf (x :: (t ++ p)) || strIncludes p (t ++ p)) from rfl]
    rw [ih]
    simp

/-- Facts about every cell produced by `rowCells`: non-empty, trim-fixed,
and free of `|`. -/
theorem rowCells_facts (t cell : Str) (h : cell ∈ rowCells t) :
    cell ≠ [] ∧ jsTrim cell = cell ∧ '|' ∉ cell := by
  unfold rowCells at h
  rw [List.mem_filter] at h
  obtain ⟨hmem, hne⟩ := h
  rw [List.mem_map] at hmem
  obtain ⟨y, hy, rfl⟩ := hmem
  refine ⟨?_, jsTrim_idem y, ?_⟩
  · intro h0
    rw [h0] at hne
    simp at hne
  · intro hm
    exact not_mem_of_mem_splitOnChar '|' t y hy (mem_of_mem_jsTrim hm)

/-- A pipe-free cell keeps its padding pipe-free. -/
theorem pipe_not_mem_padSp {x : Str} (h : '|' ∉ x) : '|' ∉ padSp x := by
  unfold padSp
  intro hm
  rcases List.mem_cons.mp hm with hm | hm
  · exact absurd hm (by decide)
  · rcases List.mem_append.mp hm with hm | hm
    · exact h hm
    · revert hm; decide

/-- Splitting a rebuilt row on `|` recovers the padded cells. -/
theorem splitOnChar_mkRow {a b c : Str}
    (ha : '|' ∉ a) (hb : '|' ∉ b) (hc : '|' ∉ c) :
    splitOnChar '|' (mkRow a b c) = [[], padSp a, padSp b, padSp c, []] := by
  unfold mkRow
  rw [show splitOnChar '|' ('|' :: (padSp a ++ '|' :: (padSp b ++ '|' :: (padSp c ++ ['|'])))) =
        [] :: splitOnChar '|' (padSp a ++ '|' :: (padSp b ++ '|' :: (padSp c ++ ['|'])))
      from rfl]
  rw [splitOnChar_append_cons '|' _ (pipe_not_mem_padSp ha)]
  rw [splitOnChar_append_cons '|' _ (pipe_not_mem_padSp hb)]
  rw [show padSp c ++ ['|'] = padSp c ++ '|' :: [] from rfl]
  rw [splitOnChar_append_cons '|' _ (pipe_not_mem_padSp hc)]
  rfl

/-- Trimming a padded cell trims the cell. -/
theorem jsTrim_padSp (x : Str) : jsTrim (padSp x) = jsTrim x := by
  unfold padSp
  rw [jsTrim_cons_ws (by decide), jsTrim_append_ws (by decide)]

/-- The last character of a rebuilt row is `|`. -/
theorem mkRow_getLast (a b c : Str) : (mkRow a b c).getLast? = some '|' := by
  have h : mkRow a b c =
      ('|' :: (padSp a ++ '|' :: (padSp b ++ '|' :: padSp c))) ++ ['|'] := by
    simp [mkRow, List.cons_append, List.append_assoc]
  rw [h, List.getLast?_concat]

/-- A rebuilt row is fixed by `trim`. -/
theorem mkRow_trim_fixed (a b c : Str) : jsTrim (mkRow a b c) = mkRow a b c := by
  apply jsTrim_eq_self
  · intro x hx
    rw [show (mkRow a b c).head? = some '|' from rfl] at hx
    rw [Option.some_inj] at hx
    subst hx
    decide
  · intro x hx
    rw [mkRow_getLast] at hx
    rw [Option.some_inj] at hx
    subst hx
    decide

/-- The last element of an append with non-empty right part. -/
theorem getLast?_append_right {A p : Str} (hp : p ≠ []) :
    (A ++ p).getLast? = p.getLast? := by
  have hdec : p.dropLast ++ [p.getLast hp] = p := List.dropLast_append_getLast hp
  conv_lhs => rw [← hdec, ← List.append_assoc]
  rw [List.getLast?_concat, List.getLast?_eq_getLast p hp]

/-- The cells of a rebuilt row with non-empty, trim-fixed, pipe-free cells
are recovered exactly. -/
theorem rowCells_mkRow {a b c : Str}
    (ha : a ≠ []) (hat : jsTrim a = a) (hap : '|' ∉ a)
    (hb : b ≠ []) (hbt : jsTrim b = b) (hbp : '|' ∉ b)
    (hc : c ≠ []) (hct : jsTrim c = c) (hcp : '|' ∉ c) :
    rowCells (mkRow a b c) = [a, b, c] := by
  unfold rowCells
  rw [splitOnChar_mkRow hap hbp hcp]
  simp only [List.map_cons, List.map_nil]
  rw [jsTrim_padSp, jsTrim_padSp, jsTrim_padSp, hat, hbt, hct]
  rw [show jsTrim ([] : Str) = [] from rfl]
  simp [List.filter_cons, ha, hb, hc]

/-- Running `processLine` (state passed, id matching) over a row the
previous run rebuilt leaves it unchanged: its key-paths cell now contains
the path. -/
theorem processLine_mkRow (intentId p c0 c1 kp : Str)
    (h0 : c0 ≠ []) (h0t : jsTrim c0 = c0) (h0p : '|' ∉ c0)
    (h1 : c1 ≠ []) (h1t : jsTrim c1 = c1) (h1p : '|' ∉ c1)
    (hk : kp ≠ []) (hkt : jsTrim kp = kp) (hkp : '|' ∉ kp)
    (hc0 : c0 = intentId)
    (hp : '|' ∉ p) (hpt : jsTrim p = p) (hpne : p ≠ []) :
    processLine intentId p true (mkRow c0 c1 (kp ++ str (", ") ++ p)) =
    (true, mkRow c0 c1 (kp ++ str (", ") ++ p)) := by
  have hk'ne : kp ++ str (", ") ++ p ≠ [] := by
    intro h
    exact hpne (List.append_eq_nil.mp h).2
  have hk'p : '|' ∉ kp ++ str (", ") ++ p := by
    intro hm
    rcases List.mem_append.mp hm with hm | hm
    · rcases List.mem_append.mp hm with hm | hm
      · exact hkp hm
      · revert hm; decide
    · exact hp hm
  have hk't : jsTrim (kp ++ str (", ") ++ p) = kp ++ str (", ") ++ p := by
    apply jsTrim_eq_self
    · intro x hx
      rcases hkd : kp with _ | ⟨k, ks⟩
      · exact absurd hkd hk
      · rw [hkd] at hx
        rw [show ((k :: ks ++ str (", ")) ++ p).head? = some k by simp] at hx
        rw [Option.some_inj] at hx
        subst hx
        rw [hkd] at hkt
        cases hws : isWs k
        · rfl
        · exact (head_not_ws_of_trim_fixed hkt rfl hws).elim
    · intro x hx
      rw [getLast?_append_right hpne] at hx
      cases hws : isWs x
      · rfl
      · exact (last_not_ws_of_trim_fixed hpt hx hws).elim
  have htrim : jsTrim (mkRow c0 c1 (kp ++ str (", ") ++ p)) =
      mkRow c0 c1 (kp ++ str (", ") ++ p) := mkRow_trim_fixed _ _ _
  have hcells : rowCells (mkRow c0 c1 (kp ++ str (", ") ++ p)) =
      [c0, c1, kp ++ str (", ") ++ p] :=
    rowCells_mkRow h0 h0t h0p h1 h1t h1p hk'ne hk't hk'p
  have hincl : strIncludes p (kp ++ str (", ") ++ p) = true :=
    strIncludes_append_self (kp ++ str (", ")) p
  simp only [processLine]
  rw [htrim]
  rw [if_pos ⟨rfl, mkRow_getLast _ _ _⟩]
  by_cases hsep : isSepShaped (mkRow c0 c1 (kp ++ str (", ") ++ p)) = true
  · rw [if_pos hsep]
  · rw [if_neg hsep]
    rw [hcells]
    simp only [if_pos hc0, hincl]
    simp

/-- `processLine` either emits the line unchanged or rebuilds a matching
row, appending the path to the key-paths cell. -/
theorem processLine_cases (intentId p : Str) (sp : Bool) (line : Str) :
    (processLine intentId p sp line).2 = line ∨
    (sp = true ∧ (processLine intentId p sp line).1 = true ∧
      ∃ c0 c1 kp rest, rowCells (jsTrim line) = c0 :: c1 :: kp :: rest ∧
        c0 = intentId ∧ strIncludes p kp = false ∧
        (processLine intentId p sp line).2 =
          mkRow c0 c1 (if kp.isEmpty then p else kp ++ str (", ") ++ p)) := by
  by_cases h1 : ((jsTrim line).head? = some '|' ∧ (jsTrim line).getLast? = some '|')
  · by_cases h2 : isSepShaped (jsTrim line) = true
    · left; simp [processLine, h1, h2]
    · cases sp with
      | false => left; simp [processLine, h1, h2]
      | true =>
        rcases hcells : rowCells (jsTrim line) with _ | ⟨c0, t0⟩
        · left; simp [processLine, h1, h2, hcells]
        · rcases t0 with _ | ⟨c1, t1⟩
          · left; simp [processLine, h1, h2, hcells]
          · rcases t1 with _ | ⟨kp, rest⟩
            · left; simp [processLine, h1, h2, hcells]
            · by_cases hc0 : c0 = intentId
              · by_cases hincl : strIncludes p kp = true
                · left; simp [processLine, h1, h2, hcells, hc0, hincl]
                · have hincl' : strIncludes p kp = false := by
                    cases hv : strIncludes p kp
                    · rfl
                    · exact absurd hv hincl
                  right
                  refine ⟨rfl, ?_, c0, c1, kp, rest, rfl, hc0, hincl', ?_⟩ <;>
                    simp [processLine, h1, h2, hcells, hc0, hincl']
              · left; simp [processLine, h1, h2, hcells, hc0]
  · left; simp [processLine, h1]

/-- Running `processLine` again on its own output, from the same state,
changes nothing (for a pipe-free, trim-fixed path). -/
theorem processLine_idem (intentId p : Str) (hp : '|' ∉ p) (hpt : jsTrim p = p)
    (sp : Bool) (line : Str) :
    processLine intentId p sp (processLine intentId p sp line).2 =
      processLine intentId p sp line := by
  rcases processLine_cases intentId p sp line with hout |
    ⟨hsp, hst, c0, c1, kp, rest, hcells, hc0, hincl, hout⟩
  · rw [hout]
  · obtain ⟨h0ne, h0t, h0p⟩ :=
      rowCells_facts (jsTrim line) c0 (by rw [hcells]; simp)
    obtain ⟨h1ne, h1t, h1p⟩ :=
      rowCells_facts (jsTrim line) c1 (by rw [hcells]; simp)
    obtain ⟨hkne, hkt, hkp⟩ :=
      rowCells_facts (jsTrim line) kp (by rw [hcells]; simp)
    have hpne : p ≠ [] := by
      intro h0
      rw [h0, strIncludes_nil] at hincl
      exact absurd hincl (by decide)
    have hkemp : kp.isEmpty = false := by
      rcases hkd : kp with _ | ⟨a, as⟩
      · exact absurd hkd hkne
      · rfl
    rw [hkemp] at hout
    simp only [Bool.false_eq_true, if_false] at hout
    subst hsp
    have key := processLine_mkRow intentId p c0 c1 kp h0ne h0t h0p h1ne h1t h1p
      hkne hkt hkp hc0 hp hpt hpne
    have hR : processLine intentId p true line =
        (true, mkRow c0 c1 (kp ++ str (", ") ++ p)) := by
      rw [show processLine intentId p true line =
            ((processLine intentId p true line).1,
             (processLine intentId p true line).2) from rfl]
      rw [hst, hout]
    rw [hout, hR]
    exact key

/-- A row rebuilt from newline-free cells and path is newline-free. -/
theorem mkRow_no_newline {a b c : Str} (ha : '\n' ∉ a) (hb : '\n' ∉ b)
    (hc : '\n' ∉ c) : '\n' ∉ mkRow a b c := by
  unfold mkRow padSp
  intro hx
  rcases List.mem_cons.mp hx with hx | hx
  · exact absurd hx (by decide)
  rcases List.mem_append.mp hx with hx | hx
  · rcases List.mem_cons.mp hx with hx | hx
    · exact absurd hx (by decide)
    rcases List.mem_append.mp hx with hx | hx
    · exact ha hx
    · revert hx; decide
  rcases List.mem_cons.mp hx with hx | hx
  · exact absurd hx (by decide)
  rcases List.mem_append.mp hx with hx | hx
  · rcases List.mem_cons.mp hx with hx | hx
    · exact absurd hx (by decide)
    rcases List.mem_append.mp hx with hx | hx
    · exact hb hx
    · revert hx; decide
  rcases List.mem_cons.mp hx with hx | hx
  · exact absurd hx (by decide)
  rcases List.mem_append.mp hx with hx | hx
  · rcases List.mem_cons.mp hx with hx | hx
    · exact absurd hx (by decide)
    rcases List.mem_append.mp hx with hx | hx
    · exact hc hx
    · revert hx; decide
  · revert hx; decide

/-- The line loop emits only newline-free lines when fed newline-free lines
and a newline-free path. -/
theorem runLines_no_newline (intentId p : Str) (hpn : '\n' ∉ p) :
    ∀ (L : List Str) (sp : Bool), (∀ l ∈ L, '\n' ∉ l) →
      ∀ l' ∈ runLines intentId p sp L, '\n' ∉ l' := by
  intro L
  induction L with
  | nil =>
    intro sp _ l' hl'
    simp [runLines] at hl'
  | cons l ls ih =>
    intro sp h l' hl'
    rw [show runLines intentId p sp (l :: ls) =
          (processLine intentId p sp l).2 ::
            runLines intentId p (processLine intentId p sp l).1 ls from rfl] at hl'
    rcases List.mem_cons.mp hl' with rfl | hl'
    · rcases processLine_cases intentId p sp l with hout |
        ⟨_, _, c0, c1, kp, rest, hcells, _, hincl, hout⟩
      · rw [hout]; exact h l (by simp)
      · rw [hout]
        have hline : '\n' ∉ l := h l (by simp)
        have hcell : ∀ cell ∈ rowCells (jsTrim l), '\n' ∉ cell := by
          intro cell hcellmem hx
          unfold rowCells at hcellmem
          rw [List.mem_filter] at hcellmem
          obtain ⟨hm, _⟩ := hcellmem
          rw [List.mem_map] at hm
          obtain ⟨y, hy, rfl⟩ := hm
          exact hline (mem_of_mem_jsTrim
            (mem_of_mem_splitOnChar '|' (jsTrim l) y '\n' hy (mem_of_mem_jsTrim hx)))
        have h0 : '\n' ∉ c0 := hcell c0 (by rw [hcells]; simp)
        have h1' : '\n' ∉ c1 := hcell c1 (by rw [hcells]; simp)
        have hk' : '\n' ∉ kp := hcell kp (by rw [hcells]; simp)
        have hK : '\n' ∉ (if kp.isEmpty then p else kp ++ str (", ") ++ p) := by
          by_cases hke : kp.isEmpty = true
          · rw [if_pos hke]; exact hpn
          · rw [if_neg hke]
            intro hx
            rcases List.mem_append.mp hx with hx | hx
            · rcases List.mem_append.mp hx with hx | hx
              · exact hk' hx
              · revert hx; decide
            · exact hpn hx
        exact mkRow_no_newline h0 h1' hK
    · exact ih _ (fun u hu => h u (by simp [hu])) l' hl'

/-- The line loop never drops lines. -/
theorem runLines_ne_nil (intentId p : Str) (sp : Bool) {L : List Str}
    (h : L ≠ []) : runLines intentId p sp L ≠ [] := by
  cases L with
  | nil => exact absurd rfl h
  | cons l ls => simp [runLines]

/-- The line loop is idempotent from any state (pipe-free, trim-fixed
path). -/
theorem runLines_idem (intentId p : Str) (hp : '|' ∉ p) (hpt : jsTrim p = p) :
    ∀ (L : List Str) (sp : Bool),
      runLines intentId p sp (runLines intentId p sp L) =
        runLines intentId p sp L := by
  intro L
  induction L with
  | nil => intro sp; rfl
  | cons l ls ih =>
    intro sp
    rw [show runLines intentId p sp (l :: ls) =
          (processLine intentId p sp l).2 ::
            runLines intentId p (processLine intentId p sp l).1 ls from rfl]
    rw [show runLines intentId p sp ((processLine intentId p sp l).2 ::
            runLines intentId p (processLine intentId p sp l).1 ls) =
          (processLine intentId p sp (processLine intentId p sp l).2).2 ::
            runLines intentId p
              (processLine intentId p sp (processLine intentId p sp l).2).1
              (runLines intentId p (processLine intentId p sp l).1 ls) from rfl]
    rw [processLine_idem intentId p hp hpt sp l]
    rw [ih]

/-- C9 (amended): the spatial-map update is idempotent for every intent id
and every relative path whose trimmed form contains neither `|` nor a
newline: applying `updateIntentMapForEvolution` twice with the same
arguments yields the same content as applying it once — a path already
listed in the matching row's key-paths cell is never appended again. -/
theorem intentMap_update_idempotent (intentId relativePath content : Str)
    (hp : '|' ∉ jsTrim relativePath) (hpn : '\n' ∉ jsTrim relativePath) :
    updateIntentMapForEvolution intentId relativePath
      (updateIntentMapForEvolution intentId relativePath content) =
    updateIntentMapForEvolution intentId relativePath content := by
  unfold updateIntentMapForEvolution
  have hpt : jsTrim (jsTrim relativePath) = jsTrim relativePath := jsTrim_idem _
  have hLmem : ∀ l ∈ splitOnChar '\n' content, '\n' ∉ l := by
    intro l hl
    exact not_mem_of_mem_splitOnChar '\n' content l hl
  have hL'mem : ∀ l ∈ runLines intentId (jsTrim relativePath) false
      (splitOnChar '\n' content), '\n' ∉ l :=
    runLines_no_newline intentId _ hpn (splitOnChar '\n' content) false hLmem
  have hL'ne : runLines intentId (jsTrim relativePath) false
      (splitOnChar '\n' content) ≠ [] :=
    runLines_ne_nil _ _ _ (splitOnChar_ne_nil '\n' content)
  rw [splitOnChar_joinChar '\n' _ hL'ne hL'mem]
  rw [runLines_idem intentId _ hp hpt]

/-- Witness for C9 (amended): a normal path on the concrete table. -/
theorem intentMap_update_idempotent_witness :
    ('|' ∉ jsTrim (str ("src/x.ts"))) ∧ ('\n' ∉ jsTrim (str ("src/x.ts"))) ∧
    updateIntentMapForEvolution (str ("I1")) (str ("src/x.ts"))
      (updateIntentMapForEvolution (str ("I1")) (str ("src/x.ts")) c9Map) =
    updateIntentMapForEvolution (str ("I1")) (str ("src/x.ts")) c9Map :=
  ⟨by decide, by decide,
   intentMap_update_idempotent (str ("I1")) (str ("src/x.ts")) c9Map
     (by decide) (by decide)⟩

end Roo
